import Mathlib

/-!
# State objects of eth-go: `ethchain/state_object.go`

A shallow embedding of the account / contract record (`StateObject`), its
serialisation, its storage and code reads, and contract creation
(`MakeContract`), followed by the properties proved about them.

Conventions of the embedding

* A Go byte slice or string is a `List Nat` (`Bytes`); a `nil` slice and an
  empty slice are the same value `[]`.
* `*big.Int` is `Int`, `uint64` is a `Nat` below `2 ^ 64`, `int64` is an `Int`
  in `[-2 ^ 63, 2 ^ 63)`. Numbers and entities are values: two pointers to one
  `big.Int` or one `StateObject` are not told apart from two equal copies,
  except in `AddAmountInPlace` and `SubAmountInPlace`, which take the `big.Int`
  cells by pointer.
* A Go call that panics is a call that returns `Except.error` with the
  `Fault` it ends in; methods that mutate their receiver return the new
  receiver.
* The package `ethutil` (codec, dynamic values, trie, `BigToBytes`), the types
  `State` and `Transaction` and the database handle `ethutil.Config.Db` are
  not part of `state_object.go`; their models are marked as such.
-/

namespace Ethchain

/-- A byte string: the contents of a Go `[]byte` or `string`. -/
abbrev Bytes := List Nat

/-- The ways a call can fail: a Go run-time panic on a nil pointer or on an
index or slice bound, and the codec's `MalformedRecord`. -/
inductive Fault where
  | nilDereference
  | indexOutOfRange
  | malformedRecord
  deriving DecidableEq, Repr

/-- Equality of two results is decidable when it is on values and faults. -/
instance instDecidableEqResult {ε α : Type} [DecidableEq ε] [DecidableEq α] :
    DecidableEq (Except ε α)
  | .ok a, .ok b =>
    if h : a = b then isTrue (by rw [h]) else isFalse (fun h' => h (Except.ok.inj h'))
  | .error a, .error b =>
    if h : a = b then isTrue (by rw [h]) else isFalse (fun h' => h (Except.error.inj h'))
  | .ok _, .error _ => isFalse (fun h => Except.noConfusion h)
  | .error _, .ok _ => isFalse (fun h => Except.noConfusion h)

/-! ## Integers as Go sees them -/

/-- Conversion of an integer to `int64`: the low 64 bits, read in two's
complement. -/
def wrapInt64 (x : Int) : Int := (x + 2 ^ 63) % 2 ^ 64 - 2 ^ 63

/-- Go's `(*big.Int).Int64()` (package `math/big`): the low 64 bits of the
magnitude converted to `int64`, negated (in `int64`) when the number is
negative. For a number that fits in an `int64` this is the number itself. -/
def Int64 (x : Int) : Int :=
  if x < 0 then wrapInt64 (-(wrapInt64 (x.natAbs : Int))) else wrapInt64 (x.natAbs : Int)

/-- Digits of `toBE`, most significant first, accumulated in front of `acc`;
`fuel` bounds the number of digits. -/
def toBEAux : Nat → Nat → Bytes → Bytes
  | 0, _, acc => acc
  | fuel + 1, n, acc => if n = 0 then acc else toBEAux fuel (n / 256) ((n % 256) :: acc)

/-- Go's `(*big.Int).Bytes()` on a non-negative number: the minimal big-endian
byte string; `0` is the empty string. -/
def toBE (n : Nat) : Bytes := toBEAux n n []

/-- Go's `(*big.Int).SetBytes`: the number a big-endian byte string denotes. -/
def fromBE (bs : Bytes) : Nat := bs.foldl (fun acc b => acc * 256 + b) 0

/-! ## The canonical codec (`ethutil`, modelled) -/

/-- Modelled from the spec: the fields the Canonical Codec of §4.1 encodes,
`ethutil`'s dynamically typed values (the package is not in
`state_object.go`). A field is a raw byte sequence or a nested ordered list; an
unsigned integer is the byte sequence of its big-endian digits, and the
absent (`nil`) field is the distinguished marker `Item.list []`. -/
inductive Item where
  | str (b : Bytes)
  | list (xs : List Item)
  deriving Repr

mutual
/-- Equality of two fields is decidable. -/
def Item.decEq : (a b : Item) → Decidable (a = b)
  | .str a, .str b =>
    if h : a = b then isTrue (by rw [h]) else isFalse (fun h' => h (Item.str.inj h'))
  | .str _, .list _ => isFalse (fun h => Item.noConfusion h)
  | .list _, .str _ => isFalse (fun h => Item.noConfusion h)
  | .list xs, .list ys =>
    match Item.decEqList xs ys with
    | isTrue h => isTrue (by rw [h])
    | isFalse h => isFalse (fun h' => h (Item.list.inj h'))
/-- Equality of two field sequences is decidable. -/
def Item.decEqList : (xs ys : List Item) → Decidable (xs = ys)
  | [], [] => isTrue rfl
  | [], _ :: _ => isFalse (fun h => List.noConfusion h)
  | _ :: _, [] => isFalse (fun h => List.noConfusion h)
  | x :: xs, y :: ys =>
    match Item.decEq x y, Item.decEqList xs ys with
    | isTrue h₁, isTrue h₂ => isTrue (by rw [h₁, h₂])
    | isFalse h₁, _ => isFalse (fun h => h₁ (List.cons.inj h).1)
    | _, isFalse h₂ => isFalse (fun h => h₂ (List.cons.inj h).2)
end

instance : DecidableEq Item := Item.decEq

/-- The absent field: Go's `nil`, the codec's distinguished nil marker. -/
def Item.nil : Item := .list []

/-- The field of a `*big.Int`: an unsigned integer, the big-endian digits of
the magnitude. -/
def Item.ofBig (a : Int) : Item := .str (toBE a.natAbs)

/-- The field of a `uint64` (or a non-negative Go `int`). -/
def Item.ofUint (n : Nat) : Item := .str (toBE n)

/-- The field of a `[]byte` or `string`. -/
def Item.ofBytes (b : Bytes) : Item := .str b

/-- Modelled from the spec: the length prefix of the codec of §4.1 ("length-
prefixed per element"), in the RLP layout the source names (`RlpEncode`): one
byte `off + n` for a payload of fewer than 56 bytes, else `off + 55 + k`
followed by the `k` big-endian bytes of `n`. -/
def encodeLength (n off : Nat) : Bytes :=
  if n < 56 then [off + n] else (off + 55 + (toBE n).length) :: toBE n

mutual
/-- Modelled from the spec: `ethutil.Encode`, the Canonical Codec's `encode`
of §4.1 (deterministic, self-delimiting, one length prefix per element), in
the RLP layout: a single byte below `0x80` is its own encoding, a byte string
is prefixed from `0x80`, a list from `0xc0`; `nil` is the empty list `0xc0`. -/
def encodeItem : Item → Bytes
  | .str b =>
    match b with
    | [x] => if x < 0x80 then [x] else encodeLength 1 0x80 ++ [x]
    | _ => encodeLength b.length 0x80 ++ b
  | .list xs => encodeLength (encodeItems xs).length 0xc0 ++ encodeItems xs
/-- The concatenated encodings of the elements of a list: its payload. -/
def encodeItems : List Item → Bytes
  | [] => []
  | x :: xs => encodeItem x ++ encodeItems xs
end

mutual
/-- A field fits the codec when every byte string in it and every list payload
in it is shorter than `2 ^ 64` bytes, the longest a length prefix can announce
(a Go slice is shorter than `2 ^ 63`). -/
def Item.fits : Item → Bool
  | .str b => decide (b.length < 2 ^ 64)
  | .list xs => Item.fitsAll xs && decide ((encodeItems xs).length < 2 ^ 64)
/-- Every field of the sequence fits the codec. -/
def Item.fitsAll : List Item → Bool
  | [] => true
  | x :: xs => x.fits && Item.fitsAll xs
end

/-- Takes `n` bytes off the front of the input; `MalformedRecord` when fewer
are left (a truncated stream, or a length prefix pointing past the end). -/
def readBytes (n : Nat) (bs : Bytes) : Except Fault (Bytes × Bytes) :=
  if bs.length < n then .error .malformedRecord else .ok (bs.take n, bs.drop n)

/-- Modelled from the spec: the first step of the Canonical Codec's `decode`
of §4.1: reads the length prefix `b` of one element and takes the element's
payload off the input. The result says whether the element is a list, and
gives its payload and the bytes after it. It fails with `MalformedRecord` on a
truncated stream and on a length prefix pointing past the end of the
buffer. -/
def decodeHeader (b : Nat) (rest : Bytes) : Except Fault (Bool × Bytes × Bytes) :=
  if b < 0x80 then .ok (false, [b], rest)
  else if b < 0xb8 then
    match readBytes (b - 0x80) rest with
    | .error e => .error e
    | .ok (payload, rest₁) => .ok (false, payload, rest₁)
  else if b < 0xc0 then
    match readBytes (b - 0xb7) rest with
    | .error e => .error e
    | .ok (lenBytes, rest₁) =>
      match readBytes (fromBE lenBytes) rest₁ with
      | .error e => .error e
      | .ok (payload, rest₂) => .ok (false, payload, rest₂)
  else if b < 0xf8 then
    match readBytes (b - 0xc0) rest with
    | .error e => .error e
    | .ok (payload, rest₁) => .ok (true, payload, rest₁)
  else
    match readBytes (b - 0xf7) rest with
    | .error e => .error e
    | .ok (lenBytes, rest₁) =>
      match readBytes (fromBE lenBytes) rest₁ with
      | .error e => .error e
      | .ok (payload, rest₂) => .ok (true, payload, rest₂)

mutual
/-- Modelled from the spec: the Canonical Codec's `decode` of §4.1, the inverse
of `encodeItem`: reads one element off the front of the input and returns it
with the bytes after it; the elements of a list are decoded from its payload.
`fuel` bounds the nesting and is never exhausted by `NewValueFromBytes`. -/
def decodeItem : Nat → Bytes → Except Fault (Item × Bytes)
  | 0, _ => .error .malformedRecord
  | _ + 1, [] => .error .malformedRecord
  | fuel + 1, b :: rest =>
    match decodeHeader b rest with
    | .error e => .error e
    | .ok (false, payload, rest₁) => .ok (.str payload, rest₁)
    | .ok (true, payload, rest₁) =>
      match decodeList fuel payload with
      | .error e => .error e
      | .ok xs => .ok (.list xs, rest₁)
/-- Decodes a payload into the sequence of its elements. -/
def decodeList : Nat → Bytes → Except Fault (List Item)
  | 0, _ => .error .malformedRecord
  | _ + 1, [] => .ok []
  | fuel + 1, b :: rest =>
    match decodeItem fuel (b :: rest) with
    | .error e => .error e
    | .ok (x, rest₁) =>
      match decodeList fuel rest₁ with
      | .error e => .error e
      | .ok xs => .ok (x :: xs)
end

/-- Modelled from the spec: `ethutil.Value`, the decoded value with its
"dynamic field typing" accessors (§9); it wraps one field. -/
abbrev Value := Item

/-- Modelled from the spec: `ethutil.NewValue`, wrapping a Go value; the only
literal `state_object.go` passes is the integer `0`, the zero scalar. -/
def NewValue (v : Item) : Value := v

/-- Modelled from the spec: `ethutil.NewValueFromBytes`, the codec's `decode`
applied to a whole buffer. The empty buffer, which is what the State Store
returns on a miss (§4.3), is the empty value and not an error (§4.2: reads of
an absent slot give a zero/empty scalar); otherwise a decode failure is
`MalformedRecord`. -/
def NewValueFromBytes (data : Bytes) : Except Fault Value :=
  match data with
  | [] => .ok Item.nil
  | _ :: _ =>
    match decodeItem (2 * data.length + 1) data with
    | .error e => .error e
    | .ok (v, _) => .ok v

/-- Modelled from the spec: `(*ethutil.Value).Get`, positional access to a
field of a decoded list. §9 describes the accessors as open-ended dynamic
access that does not reject an unexpected field count: a position the value
does not have reads as the empty value. -/
def Value.Get (v : Value) (idx : Nat) : Value :=
  match v with
  | .list xs => xs.getD idx Item.nil
  | .str _ => Item.nil

/-- Modelled from the spec: `(*ethutil.Value).BigInt`, the field read as an
unsigned integer of arbitrary size. -/
def Value.BigInt (v : Value) : Int :=
  match v with
  | .str b => (fromBE b : Int)
  | .list _ => 0

/-- Modelled from the spec: `(*ethutil.Value).Uint`, the field read as a
`uint64`. -/
def Value.Uint (v : Value) : Nat :=
  match v with
  | .str b => fromBE b % 2 ^ 64
  | .list _ => 0

/-- Modelled from the spec: `(*ethutil.Value).Bytes`, the field read as a raw
byte sequence. -/
def Value.Bytes (v : Value) : Ethchain.Bytes :=
  match v with
  | .str b => b
  | .list _ => []

/-- Modelled from the spec: `(*ethutil.Value).Interface`, the field itself. -/
def Value.Interface (v : Value) : Item := v

/-- Modelled from the spec: `(*ethutil.Value).Encode`, the codec's encoding of
the wrapped value. -/
def Value.Encode (v : Value) : Ethchain.Bytes := encodeItem v

/-- Modelled from the spec: `ethutil.BigToBytes(num, base)`, the storage-slot
key encoding of §6: the fixed-width (`base` bits, `base / 8` bytes) big-endian
byte sequence of the unsigned number, zero-padded on the left; the
magnitude is reduced to `base` bits. -/
def BigToBytes (num : Int) (base : Nat) : Bytes :=
  let digits := toBE (num.natAbs % 2 ^ base)
  List.replicate (base / 8 - digits.length) 0 ++ digits

/-! ## The State Store (`ethutil.Trie`, modelled) -/

/-- Modelled from the spec: the backing store `ethutil.Config.Db` shared by all
tries (§9), as far as this file needs it: the contents persisted under a root
digest, and the digest of given contents (§3: identical contents always yield
an identical root). Both are parameters of the development. -/
structure Db where
  load : Item → List (Bytes × Bytes)
  digest : List (Bytes × Bytes) → Item

/-- Modelled from the spec: the State Store of §4.3 (`ethutil.Trie`): a
key/value mapping with a root digest. `Root` is the field the source reads. -/
structure Trie where
  Root : Item
  entries : List (Bytes × Bytes)
  deriving DecidableEq, Repr

/-- Modelled from the spec: `ethutil.NewTrie(db, root)`, opening the sub-trie
addressed by `root` over the shared store (§6). The empty root and the absent
root address the empty trie (§4.2: "empty root for a brand-new contract"). -/
def NewTrie (db : Db) (root : Item) : Trie :=
  match root with
  | .str [] => { Root := root, entries := [] }
  | .list [] => { Root := root, entries := [] }
  | _ => { Root := root, entries := db.load root }

/-- Modelled from the spec: `get(key) -> bytes` of §4.3: the value stored under
the key, the empty result on a miss, never an error. -/
def Trie.Get (t : Trie) (key : Bytes) : Bytes :=
  match t.entries.find? (fun p => p.1 = key) with
  | some p => p.2
  | none => []

/-- Modelled from the spec: `update(key, value)` of §4.3, an idempotent upsert;
the root becomes the digest of the new contents. -/
def Trie.Update (db : Db) (t : Trie) (key value : Bytes) : Trie :=
  let entries := (key, value) :: t.entries.filter (fun p => ¬ p.1 = key)
  { Root := db.digest entries, entries := entries }

/-- Modelled from the spec: the type `State` (declared outside
`state_object.go`), of which the source uses the field `trie`. -/
structure State where
  trie : Trie
  deriving DecidableEq, Repr

/-- Modelled from the spec: `NewState(trie)`, the state over a trie. -/
def NewState (trie : Trie) : State := { trie := trie }

/-! ## `StateObject` -/

/-- The struct `StateObject`. `state` is a pointer and may be `nil` (`none`);
`script` and `initScript` are `nil` (`[]`) for a plain account. -/
structure StateObject where
  address : Bytes
  Amount : Int
  Nonce : Nat
  state : Option State
  script : Bytes
  initScript : Bytes
  deriving DecidableEq, Repr

/-- `NewContract(address, Amount, root)`. -/
def NewContract (db : Db) (address : Bytes) (Amount : Int) (root : Bytes) : StateObject :=
  { address := address, Amount := Amount, Nonce := 0,
    state := some (NewState (NewTrie db (Item.ofBytes root))),
    script := [], initScript := [] }

/-- `NewAccount(address, amount)`. -/
def NewAccount (address : Bytes) (amount : Int) : StateObject :=
  { address := address, Amount := amount, Nonce := 0, state := none,
    script := [], initScript := [] }

/-- `(c *StateObject) Addr(addr)`; dereferencing a `nil` `c.state` panics. -/
def StateObject.Addr (c : StateObject) (addr : Bytes) : Except Fault Value :=
  match c.state with
  | none => .error .nilDereference
  | some s => NewValueFromBytes (s.trie.Get addr)

/-- `(c *StateObject) SetAddr(addr, value)`. -/
def StateObject.SetAddr (db : Db) (c : StateObject) (addr : Bytes) (value : Item) :
    Except Fault StateObject :=
  match c.state with
  | none => .error .nilDereference
  | some s =>
    .ok { c with state := some { s with trie := s.trie.Update db addr (NewValue value).Encode } }

/-- `(c *StateObject) State()`. -/
def StateObject.State (c : StateObject) : Option Ethchain.State := c.state

/-- `(c *StateObject) GetMem(num)`. -/
def StateObject.GetMem (c : StateObject) (num : Int) : Except Fault Value :=
  let nb := BigToBytes num 256
  c.Addr nb

/-- `(c *StateObject) GetInstr(pc)`. The guard compares `int64(len(c.script)-1)`,
the length of a slice being an `int` within `int64`, with `pc.Int64()`; the
index expression `c.script[pc.Int64()]` panics when the index is negative or
not below `len(c.script)`. -/
def StateObject.GetInstr (c : StateObject) (pc : Int) : Except Fault Value :=
  if (c.script.length : Int) - 1 < Int64 pc then
    .ok (NewValue (Item.ofUint 0))
  else if 0 ≤ Int64 pc ∧ Int64 pc < (c.script.length : Int) then
    NewValueFromBytes [c.script.getD (Int64 pc).toNat 0]
  else
    .error .indexOutOfRange

/-- `(c *StateObject) SetMem(num, val)`. -/
def StateObject.SetMem (db : Db) (c : StateObject) (num : Int) (val : Value) :
    Except Fault StateObject :=
  let addr := BigToBytes num 256
  match c.state with
  | none => .error .nilDereference
  | some s => .ok { c with state := some { s with trie := s.trie.Update db addr val.Encode } }

/-- `(c *StateObject) AddAmount(amount)`. -/
def StateObject.AddAmount (c : StateObject) (amount : Int) : StateObject :=
  { c with Amount := c.Amount + amount }

/-- `(c *StateObject) SubAmount(amount)`. -/
def StateObject.SubAmount (c : StateObject) (amount : Int) : StateObject :=
  { c with Amount := c.Amount - amount }

/-- The `big.Int` cells of a running program, by pointer. -/
abbrev BigInts := Nat → Int

/-- `(c *StateObject) AddAmount(amount)` with the pointers kept: the body
`c.Amount.Add(c.Amount, amount)` writes the sum of the two cells into the
cell `balance` that `c.Amount` points to; `amount` may be that same cell.
`StateObject.AddAmount` is this call seen from the entity when `amount` is
another cell. -/
def AddAmountInPlace (cells : BigInts) (balance amount : Nat) : BigInts :=
  fun p => if p = balance then cells balance + cells amount else cells p

/-- `(c *StateObject) SubAmount(amount)` with the pointers kept: the body
`c.Amount.Sub(c.Amount, amount)` writes the difference of the two cells into
the cell `balance`. -/
def SubAmountInPlace (cells : BigInts) (balance amount : Nat) : BigInts :=
  fun p => if p = balance then cells balance - cells amount else cells p

/-- `(c *StateObject) ReturnGas(val, state)`. -/
def StateObject.ReturnGas (c : StateObject) (val : Int) (_state : Option Ethchain.State) :
    StateObject :=
  c.AddAmount val

/-- `(c *StateObject) Address()`. -/
def StateObject.Address (c : StateObject) : Bytes := c.address

/-- `(c *StateObject) Script()`. -/
def StateObject.Script (c : StateObject) : Bytes := c.script

/-- `(c *StateObject) Init()`. -/
def StateObject.Init (c : StateObject) : Bytes := c.initScript

/-- The local variable `root` of `RlpEncode`: the root of the sub-trie, `nil`
when `c.state` is `nil`. -/
def StateObject.rootField (c : StateObject) : Item :=
  match c.state with
  | some s => s.trie.Root
  | none => Item.nil

/-- The list `[]interface{}{c.Amount, c.Nonce, root, c.script}` that `RlpEncode`
hands to the codec. -/
def StateObject.fields (c : StateObject) : List Item :=
  [Item.ofBig c.Amount, Item.ofUint c.Nonce, c.rootField, Item.ofBytes c.script]

/-- `(c *StateObject) RlpEncode()`. -/
def StateObject.RlpEncode (c : StateObject) : Bytes :=
  encodeItem (.list c.fields)

/-- `(c *StateObject) RlpDecode(data)`; a failure of the decoder ends the
call. -/
def StateObject.RlpDecode (db : Db) (c : StateObject) (data : Bytes) : Except Fault StateObject :=
  match NewValueFromBytes data with
  | .error e => .error e
  | .ok decoder =>
    .ok { c with
      Amount := (decoder.Get 0).BigInt
      Nonce := (decoder.Get 1).Uint
      state := some (NewState (NewTrie db (decoder.Get 2).Interface))
      script := (decoder.Get 3).Bytes }

/-- `NewStateObjectFromBytes(address, data)`. The struct literal leaves every
field but the address at its zero value. -/
def NewStateObjectFromBytes (db : Db) (address data : Bytes) : Except Fault StateObject :=
  let object : StateObject :=
    { address := address, Amount := 0, Nonce := 0, state := none, script := [], initScript := [] }
  object.RlpDecode db data

/-! ## Contract creation -/

/-- Modelled from the spec: the type `Transaction` (declared outside
`state_object.go`), with the fields and the content hash `MakeContract`
reads: `Hash` is the result of `tx.Hash()`. -/
structure Transaction where
  Recipient : Bytes
  Value : Int
  Data : Bytes
  Init : Bytes
  Hash : Bytes
  deriving DecidableEq, Repr

/-- Modelled from the spec: `(tx *Transaction) IsContract()`: the transaction
designates no explicit recipient (§4.5). -/
def Transaction.IsContract (tx : Transaction) : Bool := tx.Recipient.isEmpty

/-- Modelled from the spec: `(s *State) UpdateStateObject(object)`: the State
Store persists the encoded bytes under the entity's address key (§2, §6). -/
def State.UpdateStateObject (db : Db) (s : State) (object : StateObject) : State :=
  { s with trie := s.trie.Update db object.Address object.RlpEncode }

/-- `MakeContract(tx, state)`: the returned entity (`nil` is `none`) and the
state after the call. The slice `tx.Hash()[12:]` panics on a hash shorter
than 12 bytes. -/
def MakeContract (db : Db) (tx : Transaction) (state : State) :
    Except Fault (Option StateObject × State) :=
  if tx.IsContract then
    if tx.Hash.length < 12 then .error .indexOutOfRange
    else
      let addr := tx.Hash.drop 12
      let value := tx.Value
      let contract := NewContract db addr value []
      let state₁ := state.UpdateStateObject db contract
      let contract := { contract with script := tx.Data, initScript := tx.Init }
      let state₂ := state₁.UpdateStateObject db contract
      .ok (some contract, state₂)
  else
    .ok (none, state)

/-! ## The object cache -/

/-- The struct `CachedStateObject`. -/
structure CachedStateObject where
  Nonce : Nat
  Object : StateObject
  deriving DecidableEq, Repr

/-- The struct `StateObjectCache`: a Go map keyed by the address bytes, as
`NewStateObjectCache` makes it (never `nil`), with one entry per key. -/
structure StateObjectCache where
  cachedObjects : List (Bytes × CachedStateObject)
  deriving DecidableEq, Repr

/-- `NewStateObjectCache()`. -/
def NewStateObjectCache : StateObjectCache := { cachedObjects := [] }

/-- `(s *StateObjectCache) Add(addr, object)`: the new record and the cache
after the assignment to the map. -/
def StateObjectCache.Add (s : StateObjectCache) (addr : Bytes) (object : StateObject) :
    CachedStateObject × StateObjectCache :=
  let state : CachedStateObject := { Nonce := object.Nonce, Object := object }
  (state, { cachedObjects := (addr, state) :: s.cachedObjects.filter (fun p => ¬ p.1 = addr) })

/-- `(s *StateObjectCache) Get(addr)`: the record, `nil` (`none`) when the map
has no entry. -/
def StateObjectCache.Get (s : StateObjectCache) (addr : Bytes) : Option CachedStateObject :=
  (s.cachedObjects.find? (fun p => p.1 = addr)).map (fun p => p.2)

/-! ## Sample data -/

/-- A backing store holding nothing, with the list of entries itself, encoded
as nested lists, standing for the digest of the contents. -/
def sampleDb : Db :=
  { load := fun _ => []
    digest := fun es => .list (es.map (fun p => .list [.str p.1, .str p.2])) }

/-- A contract-creation transaction: value `1000`, code `0xAB 0xCD`, init code
`0x00`, with the 32 bytes `0, 1, ..., 31` for its content hash. -/
def sampleTx : Transaction :=
  { Recipient := [], Value := 1000, Data := [0xab, 0xcd], Init := [0x00], Hash := List.range 32 }

/-- A second contract-creation transaction, with another content hash. -/
def sampleTx₂ : Transaction :=
  { Recipient := [], Value := 5, Data := [0x60], Init := [], Hash := List.replicate 32 0x77 }

/-- The empty top-level state over `sampleDb`. -/
def sampleState : State := NewState (NewTrie sampleDb (Item.ofBytes []))

/-- The entity `NewStateObjectFromBytes` builds from the record of the plain
account `NewAccount([0x33], 7)`: it has a sub-trie, opened at the `nil` root. -/
def loadedPlainAccount : StateObject :=
  { address := [0x33], Amount := 7, Nonce := 0,
    state := some { trie := { Root := Item.nil, entries := [] } },
    script := [], initScript := [] }

/-- A transaction with an explicit recipient: a transfer of `5`. -/
def sampleTransfer : Transaction :=
  { Recipient := [0x99], Value := 5, Data := [], Init := [], Hash := List.replicate 32 0x55 }

/-- A contract entity with nonce `5`, balance `7` and code `0x60`, over the empty
sub-trie; it is what loading its own record returns. -/
def nonceFiveContract : StateObject :=
  { address := [0x11], Amount := 7, Nonce := 5,
    state := some { trie := { Root := Item.ofBytes [], entries := [] } },
    script := [0x60], initScript := [] }

/-- The contract `MakeContract` returns for `sampleTx`: the last 20 bytes of the
hash for its address, balance `1000`, code `0xAB 0xCD`, init code `0x00`. -/
def sampleContract : StateObject :=
  { address := (List.range 32).drop 12, Amount := 1000, Nonce := 0,
    state := some { trie := { Root := Item.ofBytes [], entries := [] } },
    script := [0xab, 0xcd], initScript := [0x00] }

/-- Two `big.Int` cells: cell `0` holds `5`, every other cell holds `3`. -/
def sampleCells : BigInts := fun p => if p = 0 then 5 else 3

/-! ## Big-endian digits -/

theorem fromBE_append_singleton (bs : Bytes) (d : Nat) :
    fromBE (bs ++ [d]) = fromBE bs * 256 + d := by
  simp [fromBE, List.foldl_append]

theorem toBEAux_acc (fuel n : Nat) (acc : Bytes) :
    toBEAux fuel n acc = toBEAux fuel n [] ++ acc := by
  induction fuel generalizing n acc with
  | zero => simp [toBEAux]
  | succ fuel ih =>
    simp only [toBEAux]
    split
    · simp
    · rw [ih (n / 256) ((n % 256) :: acc), ih (n / 256) [n % 256]]
      simp

theorem toBEAux_succ_pos (fuel n : Nat) (hn : n ≠ 0) :
    toBEAux (fuel + 1) n [] = toBEAux fuel (n / 256) [] ++ [n % 256] := by
  simp only [toBEAux, if_neg hn]
  exact toBEAux_acc fuel (n / 256) [n % 256]

theorem fromBE_toBEAux (fuel n : Nat) (h : n ≤ fuel) : fromBE (toBEAux fuel n []) = n := by
  induction fuel generalizing n with
  | zero =>
    have : n = 0 := by omega
    subst this
    simp [toBEAux, fromBE]
  | succ fuel ih =>
    by_cases hn : n = 0
    · subst hn
      simp [toBEAux, fromBE]
    · rw [toBEAux_succ_pos fuel n hn, fromBE_append_singleton, ih (n / 256) (by omega)]
      omega

theorem fromBE_toBE (n : Nat) : fromBE (toBE n) = n :=
  fromBE_toBEAux n n (Nat.le_refl n)

theorem toBEAux_length_le (fuel n k : Nat) (h : n < 256 ^ k) :
    (toBEAux fuel n []).length ≤ k := by
  induction fuel generalizing n k with
  | zero => simp [toBEAux]
  | succ fuel ih =>
    by_cases hn : n = 0
    · subst hn
      simp [toBEAux]
    · rw [toBEAux_succ_pos fuel n hn]
      cases k with
      | zero => simp at h; omega
      | succ k =>
        have hk : n / 256 < 256 ^ k := by
          rw [Nat.div_lt_iff_lt_mul (by norm_num)]
          rw [pow_succ] at h
          exact h
        have := ih (n / 256) k hk
        simp
        omega

theorem toBE_length_le (n k : Nat) (h : n < 256 ^ k) : (toBE n).length ≤ k :=
  toBEAux_length_le n n k h

theorem toBE_length_pos (n : Nat) (hn : n ≠ 0) : 0 < (toBE n).length := by
  unfold toBE
  cases n with
  | zero => exact absurd rfl hn
  | succ m =>
    rw [toBEAux_succ_pos m (m + 1) hn]
    simp

theorem toBE_length_le_eight (n : Nat) (h : n < 2 ^ 64) : (toBE n).length ≤ 8 :=
  toBE_length_le n 8 (by norm_num at h ⊢; exact h)

theorem fromBE_replicate_zero_append (k : Nat) (bs : Bytes) :
    fromBE (List.replicate k 0 ++ bs) = fromBE bs := by
  induction k with
  | zero => simp
  | succ k ih =>
    simp only [List.replicate_succ, List.cons_append]
    simp only [fromBE, List.foldl_cons] at ih ⊢
    simpa using ih

/-! ## The codec: decoding an encoding -/

theorem readBytes_append (b rest : Bytes) : readBytes b.length (b ++ rest) = .ok (b, rest) := by
  simp [readBytes]

theorem readBytes_append_of_eq (n : Nat) (b rest : Bytes) (h : b.length = n) :
    readBytes n (b ++ rest) = .ok (b, rest) := by
  subst h
  exact readBytes_append b rest

theorem encodeLength_ne_nil (n off : Nat) : encodeLength n off ≠ [] := by
  unfold encodeLength
  split <;> simp

theorem encodeItem_length_pos (x : Item) : 0 < (encodeItem x).length := by
  have h : ∀ n off, 0 < (encodeLength n off).length := by
    intro n off
    exact List.length_pos.mpr (encodeLength_ne_nil n off)
  cases x with
  | str b =>
    unfold encodeItem
    split
    · split
      · simp
      · have := h 1 0x80
        simp only [List.length_append]
        omega
    · have := h b.length 0x80
      simp only [List.length_append]
      omega
  | list xs =>
    unfold encodeItem
    have := h (encodeItems xs).length 0xc0
    simp only [List.length_append]
    omega

theorem encodeLength_short (n off : Nat) (h : n < 56) : encodeLength n off = [off + n] := by
  unfold encodeLength
  exact if_pos h

theorem encodeLength_long (n off : Nat) (h : ¬ n < 56) :
    encodeLength n off = (off + 55 + (toBE n).length) :: toBE n := by
  unfold encodeLength
  exact if_neg h

theorem decodeItem_succ_cons (fuel b : Nat) (rest : Bytes) :
    decodeItem (fuel + 1) (b :: rest) =
      match decodeHeader b rest with
      | .error e => .error e
      | .ok (false, payload, rest₁) => .ok (.str payload, rest₁)
      | .ok (true, payload, rest₁) =>
        match decodeList fuel payload with
        | .error e => .error e
        | .ok xs => .ok (.list xs, rest₁) := by
  rw [decodeItem]

/-- Reading the prefix of a byte string takes exactly the string. -/
theorem decodeHeader_str_prefixed (b rest : Bytes) (hb : b.length < 2 ^ 64) :
    ∃ h tl, encodeLength b.length 0x80 ++ (b ++ rest) = h :: tl ∧
      decodeHeader h tl = .ok (false, b, rest) := by
  by_cases h56 : b.length < 56
  · refine ⟨0x80 + b.length, b ++ rest, by rw [encodeLength_short _ _ h56]; rfl, ?_⟩
    unfold decodeHeader
    rw [if_neg (by omega), if_pos (by omega)]
    rw [readBytes_append_of_eq _ b rest (by omega)]
  · have hpos := toBE_length_pos b.length (by omega)
    have hle := toBE_length_le_eight b.length hb
    refine ⟨0x80 + 55 + (toBE b.length).length, toBE b.length ++ (b ++ rest),
      by rw [encodeLength_long _ _ h56]; rfl, ?_⟩
    unfold decodeHeader
    rw [if_neg (by omega), if_neg (by omega), if_pos (by omega)]
    rw [readBytes_append_of_eq _ (toBE b.length) (b ++ rest) (by omega)]
    simp only [fromBE_toBE]
    rw [readBytes_append]

/-- Reading the prefix of a list takes exactly its payload. -/
theorem decodeHeader_list_prefixed (p rest : Bytes) (hp : p.length < 2 ^ 64) :
    ∃ h tl, encodeLength p.length 0xc0 ++ (p ++ rest) = h :: tl ∧
      decodeHeader h tl = .ok (true, p, rest) := by
  by_cases h56 : p.length < 56
  · refine ⟨0xc0 + p.length, p ++ rest, by rw [encodeLength_short _ _ h56]; rfl, ?_⟩
    unfold decodeHeader
    rw [if_neg (by omega), if_neg (by omega), if_neg (by omega), if_pos (by omega)]
    rw [readBytes_append_of_eq _ p rest (by omega)]
  · have hpos := toBE_length_pos p.length (by omega)
    have hle := toBE_length_le_eight p.length hp
    refine ⟨0xc0 + 55 + (toBE p.length).length, toBE p.length ++ (p ++ rest),
      by rw [encodeLength_long _ _ h56]; rfl, ?_⟩
    unfold decodeHeader
    rw [if_neg (by omega), if_neg (by omega), if_neg (by omega), if_neg (by omega)]
    rw [readBytes_append_of_eq _ (toBE p.length) (p ++ rest) (by omega)]
    simp only [fromBE_toBE]
    rw [readBytes_append]

/-- Decoding a prefixed byte string gives the string back. -/
theorem decodeItem_str_prefixed (fuel : Nat) (b rest : Bytes) (hb : b.length < 2 ^ 64) :
    decodeItem (fuel + 1) (encodeLength b.length 0x80 ++ (b ++ rest)) = .ok (.str b, rest) := by
  obtain ⟨h, tl, heq, hdec⟩ := decodeHeader_str_prefixed b rest hb
  rw [heq, decodeItem_succ_cons, hdec]

/-- Decoding a prefixed list payload decodes the payload. -/
theorem decodeItem_list_prefixed (fuel : Nat) (p rest : Bytes) (hp : p.length < 2 ^ 64) :
    decodeItem (fuel + 1) (encodeLength p.length 0xc0 ++ (p ++ rest)) =
      match decodeList fuel p with
      | .error e => .error e
      | .ok xs => .ok (.list xs, rest) := by
  obtain ⟨h, tl, heq, hdec⟩ := decodeHeader_list_prefixed p rest hp
  rw [heq, decodeItem_succ_cons, hdec]

theorem decodeList_succ_of_ne_nil (fuel : Nat) (bs : Bytes) (h : bs ≠ []) :
    decodeList (fuel + 1) bs =
      match decodeItem fuel bs with
      | .error e => .error e
      | .ok (x, rest₁) =>
        match decodeList fuel rest₁ with
        | .error e => .error e
        | .ok xs => .ok (x :: xs) := by
  cases bs with
  | nil => exact absurd rfl h
  | cons b rest => simp only [decodeList]

/-- With enough fuel, decoding the encoding of a field that fits gives the
field back together with the bytes that follow it, and decoding a payload
gives its elements back. -/
theorem decode_encode_fuel (fuel : Nat) :
    (∀ (x : Item) (rest : Bytes), x.fits = true → 2 * (encodeItem x).length ≤ fuel →
        decodeItem fuel (encodeItem x ++ rest) = .ok (x, rest)) ∧
    (∀ (xs : List Item), Item.fitsAll xs = true → 2 * (encodeItems xs).length + 1 ≤ fuel →
        decodeList fuel (encodeItems xs) = .ok xs) := by
  induction fuel with
  | zero =>
    constructor
    · intro x rest _ h
      have := encodeItem_length_pos x
      omega
    · intro xs _ h
      omega
  | succ fuel ih =>
    obtain ⟨ihItem, ihList⟩ := ih
    constructor
    · intro x rest hx hfuel
      cases x with
      | str b =>
        have hb : b.length < 2 ^ 64 := by simpa [Item.fits] using hx
        unfold encodeItem
        split
        · rename_i x
          split
          · rename_i hlt
            rw [List.singleton_append, decodeItem_succ_cons]
            unfold decodeHeader
            rw [if_pos hlt]
          · have := decodeItem_str_prefixed fuel [x] rest hb
            simpa [List.append_assoc] using this
        · have := decodeItem_str_prefixed fuel b rest hb
          simpa [List.append_assoc] using this
      | list xs =>
        have hx' : Item.fitsAll xs = true ∧ (encodeItems xs).length < 2 ^ 64 := by
          simpa [Item.fits] using hx
        have hlen : (encodeItem (.list xs)).length =
            (encodeLength (encodeItems xs).length 0xc0).length + (encodeItems xs).length := by
          simp [encodeItem]
        have hpos : 0 < (encodeLength (encodeItems xs).length 0xc0).length :=
          List.length_pos.mpr (encodeLength_ne_nil _ _)
        have hdec := ihList xs hx'.1 (by omega)
        have := decodeItem_list_prefixed fuel (encodeItems xs) rest hx'.2
        rw [hdec] at this
        simpa [encodeItem, List.append_assoc] using this
    · intro xs hxs hfuel
      cases xs with
      | nil => simp [encodeItems, decodeList]
      | cons x xs =>
        have hx' : x.fits = true ∧ Item.fitsAll xs = true := by
          simpa [Item.fitsAll] using hxs
        have hpos := encodeItem_length_pos x
        have hlen : (encodeItems (x :: xs)).length =
            (encodeItem x).length + (encodeItems xs).length := by
          simp [encodeItems]
        have hne : encodeItems (x :: xs) ≠ [] := by
          intro h
          rw [h] at hlen
          simp at hlen
          omega
        rw [decodeList_succ_of_ne_nil fuel _ hne]
        have h1 : decodeItem fuel (encodeItems (x :: xs)) = .ok (x, encodeItems xs) := by
          have := ihItem x (encodeItems xs) hx'.1 (by omega)
          simpa [encodeItems] using this
        rw [h1]
        simp only
        rw [ihList xs hx'.2 (by omega)]

/-- The codec round trip: `NewValueFromBytes` undoes `encodeItem` on every field
that fits. -/
theorem NewValueFromBytes_encodeItem (x : Item) (hx : x.fits = true) :
    NewValueFromBytes (encodeItem x) = .ok x := by
  have hpos := encodeItem_length_pos x
  have h := (decode_encode_fuel (2 * (encodeItem x).length + 1)).1 x [] hx (by omega)
  rw [List.append_nil] at h
  unfold NewValueFromBytes
  split
  · rename_i heq
    rw [heq] at hpos
    simp at hpos
  · rw [h]

/-! ## Truncated input -/

theorem readBytes_ok_iff (n : Nat) (bs out rest : Bytes) :
    readBytes n bs = .ok (out, rest) ↔ n ≤ bs.length ∧ out = bs.take n ∧ rest = bs.drop n := by
  unfold readBytes
  split
  · constructor
    · intro h
      cases h
    · intro h
      omega
  · constructor
    · intro h
      injection h with h
      injection h with h₁ h₂
      exact ⟨by omega, h₁.symm, h₂.symm⟩
    · rintro ⟨_, h₁, h₂⟩
      rw [h₁, h₂]

theorem readBytes_error_of_lt (n : Nat) (bs : Bytes) (h : bs.length < n) :
    readBytes n bs = .error .malformedRecord := by
  unfold readBytes
  rw [if_pos h]

/-- Takes `n` bytes off a proper prefix of an input that `readBytes n` consumes
whole: it fails. -/
theorem readBytes_prefix_error (n : Nat) (bs bs' out : Bytes)
    (h : readBytes n bs = .ok (out, [])) (hpre : bs' <+: bs) (hne : bs' ≠ bs) :
    readBytes n bs' = .error .malformedRecord := by
  obtain ⟨hle, _, hdrop⟩ := (readBytes_ok_iff n bs out []).mp h
  have hlen : bs.length ≤ n := by
    have := congrArg List.length hdrop
    simp at this
    omega
  have hlt : bs'.length < bs.length := by
    rcases Nat.lt_or_ge bs'.length bs.length with h | h
    · exact h
    · exact absurd (hpre.eq_of_length_le h) hne
  exact readBytes_error_of_lt n bs' (by omega)

/-- Two-step reads (length bytes, then the payload) on a proper prefix of an
input they consume whole: one of them fails. -/
theorem readBytes_twice_prefix_error (k : Nat) (bs bs' lenBytes rest₁ out : Bytes)
    (h₁ : readBytes k bs = .ok (lenBytes, rest₁))
    (h₂ : readBytes (fromBE lenBytes) rest₁ = .ok (out, []))
    (hpre : bs' <+: bs) (hne : bs' ≠ bs) :
    readBytes k bs' = .error .malformedRecord ∨
      ∃ rest₁', readBytes k bs' = .ok (lenBytes, rest₁') ∧
        readBytes (fromBE lenBytes) rest₁' = .error .malformedRecord := by
  obtain ⟨hle, htake, hdrop⟩ := (readBytes_ok_iff k bs lenBytes rest₁).mp h₁
  rcases Nat.lt_or_ge bs'.length k with hlt | hge
  · exact Or.inl (readBytes_error_of_lt k bs' hlt)
  · right
    obtain ⟨t, ht⟩ := hpre
    have htake' : bs'.take k = lenBytes := by
      rw [htake, ← ht, List.take_append_of_le_length hge]
    have hdrop' : bs'.drop k <+: rest₁ := by
      rw [hdrop, ← ht, List.drop_append_of_le_length hge]
      exact List.prefix_append _ _
    have hne' : bs'.drop k ≠ rest₁ := by
      intro heq
      apply hne
      rw [← List.take_append_drop k bs', ← List.take_append_drop k bs, heq, htake', ← htake, hdrop]
    refine ⟨bs'.drop k, (readBytes_ok_iff k bs' lenBytes _).mpr ⟨hge, htake'.symm, rfl⟩, ?_⟩
    exact readBytes_prefix_error _ rest₁ _ out h₂ hdrop' hne'

/-- A header read that consumes its whole input fails on every proper prefix
of that input. -/
theorem decodeHeader_prefix_error (b : Nat) (tl tl' payload : Bytes) (isList : Bool)
    (h : decodeHeader b tl = .ok (isList, payload, []))
    (hpre : tl' <+: tl) (hne : tl' ≠ tl) :
    decodeHeader b tl' = .error .malformedRecord := by
  unfold decodeHeader at h ⊢
  by_cases h1 : b < 0x80
  · rw [if_pos h1] at h
    simp only [Except.ok.injEq, Prod.mk.injEq] at h
    obtain ⟨_, _, h⟩ := h
    subst h
    exact absurd (List.prefix_nil.mp hpre) hne
  · rw [if_neg h1] at h ⊢
    by_cases h2 : b < 0xb8
    · rw [if_pos h2] at h ⊢
      cases hr : readBytes (b - 0x80) tl with
      | error e => rw [hr] at h; cases h
      | ok pr =>
        obtain ⟨out, rest⟩ := pr
        rw [hr] at h
        simp only [Except.ok.injEq, Prod.mk.injEq] at h
        obtain ⟨_, _, h⟩ := h
        subst h
        rw [readBytes_prefix_error _ tl tl' out hr hpre hne]
    · rw [if_neg h2] at h ⊢
      by_cases h3 : b < 0xc0
      · rw [if_pos h3] at h ⊢
        cases hr : readBytes (b - 0xb7) tl with
        | error e => rw [hr] at h; cases h
        | ok pr =>
          obtain ⟨lenBytes, rest₁⟩ := pr
          rw [hr] at h
          simp only at h
          cases hr₂ : readBytes (fromBE lenBytes) rest₁ with
          | error e => rw [hr₂] at h; cases h
          | ok pr₂ =>
            obtain ⟨out, rest₂⟩ := pr₂
            rw [hr₂] at h
            simp only [Except.ok.injEq, Prod.mk.injEq] at h
            obtain ⟨_, _, h⟩ := h
            subst h
            rcases readBytes_twice_prefix_error _ tl tl' lenBytes rest₁ out hr hr₂ hpre hne with
              hl | ⟨rest₁', hl₁, hl₂⟩
            · rw [hl]
            · rw [hl₁]
              simp only
              rw [hl₂]
      · rw [if_neg h3] at h ⊢
        by_cases h4 : b < 0xf8
        · rw [if_pos h4] at h ⊢
          cases hr : readBytes (b - 0xc0) tl with
          | error e => rw [hr] at h; cases h
          | ok pr =>
            obtain ⟨out, rest⟩ := pr
            rw [hr] at h
            simp only [Except.ok.injEq, Prod.mk.injEq] at h
            obtain ⟨_, _, h⟩ := h
            subst h
            rw [readBytes_prefix_error _ tl tl' out hr hpre hne]
        · rw [if_neg h4] at h ⊢
          cases hr : readBytes (b - 0xf7) tl with
          | error e => rw [hr] at h; cases h
          | ok pr =>
            obtain ⟨lenBytes, rest₁⟩ := pr
            rw [hr] at h
            simp only at h
            cases hr₂ : readBytes (fromBE lenBytes) rest₁ with
            | error e => rw [hr₂] at h; cases h
            | ok pr₂ =>
              obtain ⟨out, rest₂⟩ := pr₂
              rw [hr₂] at h
              simp only [Except.ok.injEq, Prod.mk.injEq] at h
              obtain ⟨_, _, h⟩ := h
              subst h
              rcases readBytes_twice_prefix_error _ tl tl' lenBytes rest₁ out hr hr₂ hpre hne with
                hl | ⟨rest₁', hl₁, hl₂⟩
              · rw [hl]
              · rw [hl₁]
                simp only
                rw [hl₂]

/-- A header read that fails makes the decoder fail with the same fault. -/
theorem decodeItem_error_of_header (fuel b : Nat) (tl : Bytes) (e : Fault)
    (h : decodeHeader b tl = .error e) : decodeItem (fuel + 1) (b :: tl) = .error e := by
  rw [decodeItem_succ_cons, h]

/-- A decode that consumes its whole input read a header that did. -/
theorem decodeHeader_of_decodeItem (fuel b : Nat) (tl : Bytes) (v : Item)
    (h : decodeItem (fuel + 1) (b :: tl) = .ok (v, [])) :
    ∃ isList payload, decodeHeader b tl = .ok (isList, payload, []) := by
  rw [decodeItem_succ_cons] at h
  cases hd : decodeHeader b tl with
  | error e => rw [hd] at h; cases h
  | ok r =>
    obtain ⟨isList, payload, rest⟩ := r
    rw [hd] at h
    cases isList with
    | false =>
      simp only at h
      injection h with h
      injection h with _ h
      subst h
      exact ⟨false, payload, rfl⟩
    | true =>
      simp only at h
      cases hl : decodeList fuel payload with
      | error e => rw [hl] at h; cases h
      | ok xs =>
        rw [hl] at h
        injection h with h
        injection h with _ h
        subst h
        exact ⟨true, payload, rfl⟩

/-- The decoder rejects every non-empty proper prefix of the encoding of a
field that fits: a truncated stream is a `MalformedRecord`. -/
theorem NewValueFromBytes_truncated (x : Item) (hx : x.fits = true) (p : Bytes)
    (hp : p ≠ []) (hpre : p <+: encodeItem x) (hne : p ≠ encodeItem x) :
    NewValueFromBytes p = .error .malformedRecord := by
  have hpos := encodeItem_length_pos x
  have hdec := (decode_encode_fuel (2 * (encodeItem x).length + 1)).1 x [] hx (by omega)
  rw [List.append_nil] at hdec
  cases hx' : encodeItem x with
  | nil => rw [hx'] at hpos; simp at hpos
  | cons b tl =>
    rw [hx'] at hdec hpre hne
    cases p with
    | nil => exact absurd rfl hp
    | cons b' tl' =>
      have hb : b' = b ∧ tl' <+: tl := by
        obtain ⟨t, ht⟩ := hpre
        simp only [List.cons_append, List.cons.injEq] at ht
        exact ⟨ht.1, ⟨t, ht.2⟩⟩
      obtain ⟨hb, hpre'⟩ := hb
      subst hb
      have hne' : tl' ≠ tl := fun h => hne (by rw [h])
      obtain ⟨isList, payload, hh⟩ := decodeHeader_of_decodeItem _ b' tl x hdec
      have herr := decodeHeader_prefix_error b' tl tl' payload isList hh hpre' hne'
      unfold NewValueFromBytes
      simp only
      rw [decodeItem_error_of_header _ _ _ _ herr]

/-! ## The fuel of the decoder is enough -/

theorem readBytes_length (n : Nat) (bs out rest : Bytes) (h : readBytes n bs = .ok (out, rest)) :
    out.length + rest.length = bs.length := by
  obtain ⟨hle, h₁, h₂⟩ := (readBytes_ok_iff n bs out rest).mp h
  rw [h₁, h₂, List.length_take, List.length_drop]
  omega

/-- A header read leaves no more bytes than it was given, and the payload of a
list is taken from those bytes. -/
theorem decodeHeader_length (b : Nat) (tl payload rest : Bytes) (isList : Bool)
    (h : decodeHeader b tl = .ok (isList, payload, rest)) :
    rest.length ≤ tl.length ∧ (isList = true → payload.length + rest.length ≤ tl.length) := by
  unfold decodeHeader at h
  by_cases h1 : b < 0x80
  · rw [if_pos h1] at h
    simp only [Except.ok.injEq, Prod.mk.injEq] at h
    obtain ⟨hl, _, hr⟩ := h
    subst hl hr
    exact ⟨Nat.le_refl _, fun h => Bool.noConfusion h⟩
  · rw [if_neg h1] at h
    by_cases h2 : b < 0xb8
    · rw [if_pos h2] at h
      cases hr : readBytes (b - 0x80) tl with
      | error e => rw [hr] at h; cases h
      | ok pr =>
        obtain ⟨out, rest₁⟩ := pr
        rw [hr] at h
        simp only [Except.ok.injEq, Prod.mk.injEq] at h
        obtain ⟨_, h₁, h₂⟩ := h
        subst h₁ h₂
        have := readBytes_length _ _ _ _ hr
        exact ⟨by omega, fun _ => by omega⟩
    · rw [if_neg h2] at h
      by_cases h3 : b < 0xc0
      · rw [if_pos h3] at h
        cases hr : readBytes (b - 0xb7) tl with
        | error e => rw [hr] at h; cases h
        | ok pr =>
          obtain ⟨lenBytes, rest₁⟩ := pr
          rw [hr] at h
          simp only at h
          cases hr₂ : readBytes (fromBE lenBytes) rest₁ with
          | error e => rw [hr₂] at h; cases h
          | ok pr₂ =>
            obtain ⟨out, rest₂⟩ := pr₂
            rw [hr₂] at h
            simp only [Except.ok.injEq, Prod.mk.injEq] at h
            obtain ⟨_, h₁, h₂⟩ := h
            subst h₁ h₂
            have := readBytes_length _ _ _ _ hr
            have := readBytes_length _ _ _ _ hr₂
            exact ⟨by omega, fun _ => by omega⟩
      · rw [if_neg h3] at h
        by_cases h4 : b < 0xf8
        · rw [if_pos h4] at h
          cases hr : readBytes (b - 0xc0) tl with
          | error e => rw [hr] at h; cases h
          | ok pr =>
            obtain ⟨out, rest₁⟩ := pr
            rw [hr] at h
            simp only [Except.ok.injEq, Prod.mk.injEq] at h
            obtain ⟨_, h₁, h₂⟩ := h
            subst h₁ h₂
            have := readBytes_length _ _ _ _ hr
            exact ⟨by omega, fun _ => by omega⟩
        · rw [if_neg h4] at h
          cases hr : readBytes (b - 0xf7) tl with
          | error e => rw [hr] at h; cases h
          | ok pr =>
            obtain ⟨lenBytes, rest₁⟩ := pr
            rw [hr] at h
            simp only at h
            cases hr₂ : readBytes (fromBE lenBytes) rest₁ with
            | error e => rw [hr₂] at h; cases h
            | ok pr₂ =>
              obtain ⟨out, rest₂⟩ := pr₂
              rw [hr₂] at h
              simp only [Except.ok.injEq, Prod.mk.injEq] at h
              obtain ⟨_, h₁, h₂⟩ := h
              subst h₁ h₂
              have := readBytes_length _ _ _ _ hr
              have := readBytes_length _ _ _ _ hr₂
              exact ⟨by omega, fun _ => by omega⟩

/-- A successful decode consumes at least one byte. -/
theorem decodeItem_rest_length (fuel : Nat) (bs : Bytes) (x : Item) (rest : Bytes)
    (h : decodeItem fuel bs = .ok (x, rest)) : rest.length < bs.length := by
  cases fuel with
  | zero => simp only [decodeItem] at h; cases h
  | succ fuel =>
    cases bs with
    | nil => simp only [decodeItem] at h; cases h
    | cons b tl =>
      rw [decodeItem_succ_cons] at h
      cases hd : decodeHeader b tl with
      | error e => rw [hd] at h; cases h
      | ok r =>
        obtain ⟨isList, payload, rest₁⟩ := r
        have hlen := (decodeHeader_length b tl payload rest₁ isList hd).1
        rw [hd] at h
        cases isList with
        | false =>
          simp only [Except.ok.injEq, Prod.mk.injEq] at h
          obtain ⟨_, h⟩ := h
          subst h
          simp only [List.length_cons]
          omega
        | true =>
          simp only at h
          cases hl : decodeList fuel payload with
          | error e => rw [hl] at h; cases h
          | ok xs =>
            rw [hl] at h
            simp only [Except.ok.injEq, Prod.mk.injEq] at h
            obtain ⟨_, h⟩ := h
            subst h
            simp only [List.length_cons]
            omega

/-- Fuel beyond twice the length of the input changes nothing: the decoder
never runs out of the fuel `NewValueFromBytes` gives it. -/
theorem decode_fuel_stable (fuel : Nat) :
    (∀ (g : Nat) (bs : Bytes), 2 * bs.length ≤ fuel → fuel ≤ g →
        decodeItem g bs = decodeItem fuel bs) ∧
    (∀ (g : Nat) (bs : Bytes), 2 * bs.length + 1 ≤ fuel → fuel ≤ g →
        decodeList g bs = decodeList fuel bs) := by
  induction fuel with
  | zero =>
    constructor
    · intro g bs hbs _
      have hnil : bs = [] := List.length_eq_zero.mp (by omega)
      subst hnil
      cases g <;> simp only [decodeItem]
    · intro g bs hbs _
      omega
  | succ fuel ih =>
    obtain ⟨ihItem, ihList⟩ := ih
    constructor
    · intro g bs hbs hg
      obtain ⟨g', rfl⟩ : ∃ g', g = g' + 1 := ⟨g - 1, by omega⟩
      cases bs with
      | nil => simp only [decodeItem]
      | cons b tl =>
        rw [decodeItem_succ_cons, decodeItem_succ_cons]
        cases hd : decodeHeader b tl with
        | error e => rfl
        | ok r =>
          obtain ⟨isList, payload, rest₁⟩ := r
          cases isList with
          | false => rfl
          | true =>
            have hlen := (decodeHeader_length b tl payload rest₁ true hd).2 rfl
            simp only [List.length_cons] at hbs
            simp only
            rw [ihList g' payload (by omega) (by omega)]
    · intro g bs hbs hg
      obtain ⟨g', rfl⟩ : ∃ g', g = g' + 1 := ⟨g - 1, by omega⟩
      cases bs with
      | nil => simp only [decodeList]
      | cons b tl =>
        rw [decodeList_succ_of_ne_nil g' _ (List.cons_ne_nil b tl),
          decodeList_succ_of_ne_nil fuel _ (List.cons_ne_nil b tl)]
        rw [ihItem g' (b :: tl) (by omega) (by omega)]
        cases hi : decodeItem fuel (b :: tl) with
        | error e => rfl
        | ok r =>
          obtain ⟨x, rest₁⟩ := r
          have hlen := decodeItem_rest_length fuel (b :: tl) x rest₁ hi
          simp only
          rw [ihList g' rest₁ (by omega) (by omega)]

/-- `NewValueFromBytes` is the decoder at any larger fuel. -/
theorem NewValueFromBytes_eq_decodeItem (data : Bytes) (hne : data ≠ []) (g : Nat)
    (hg : 2 * data.length + 1 ≤ g) :
    NewValueFromBytes data =
      match decodeItem g data with
      | .error e => .error e
      | .ok (v, _) => .ok v := by
  rw [(decode_fuel_stable (2 * data.length + 1)).1 g data (by omega) hg]
  unfold NewValueFromBytes
  cases data with
  | nil => exact absurd rfl hne
  | cons b tl => rfl

/-! ## Loading and serialising an entity -/

theorem NewTrie_Root (db : Db) (root : Item) : (NewTrie db root).Root = root := by
  unfold NewTrie
  split <;> rfl

/-- What `NewStateObjectFromBytes` returns when the decoder accepts the bytes:
the four positional reads, whatever the decoded value is. -/
theorem NewStateObjectFromBytes_of_ok (db : Db) (a data : Bytes) (v : Value)
    (h : NewValueFromBytes data = .ok v) :
    NewStateObjectFromBytes db a data =
      .ok { address := a, Amount := (v.Get 0).BigInt, Nonce := (v.Get 1).Uint,
            state := some (NewState (NewTrie db (v.Get 2).Interface)),
            script := (v.Get 3).Bytes, initScript := [] } := by
  simp only [NewStateObjectFromBytes, StateObject.RlpDecode, h]

/-- A failure of the decoder is the failure of `NewStateObjectFromBytes`. -/
theorem NewStateObjectFromBytes_of_error (db : Db) (a data : Bytes) (f : Fault)
    (h : NewValueFromBytes data = .error f) :
    NewStateObjectFromBytes db a data = .error f := by
  simp only [NewStateObjectFromBytes, StateObject.RlpDecode, h]

/-- A loaded entity never has a negative balance: the codec's integers are
unsigned. -/
theorem NewStateObjectFromBytes_Amount_nonneg (db : Db) (a data : Bytes) (e : StateObject)
    (h : NewStateObjectFromBytes db a data = .ok e) : 0 ≤ e.Amount := by
  cases hv : NewValueFromBytes data with
  | error f =>
    rw [NewStateObjectFromBytes_of_error db a data f hv] at h
    cases h
  | ok v =>
    rw [NewStateObjectFromBytes_of_ok db a data v hv] at h
    injection h with h
    subst h
    show 0 ≤ (v.Get 0).BigInt
    unfold Value.BigInt
    split
    · exact Int.natCast_nonneg _
    · exact Int.le_refl 0

/-- Loading the serialisation of an entity whose fields fit the codec. -/
theorem NewStateObjectFromBytes_RlpEncode (db : Db) (a : Bytes) (e : StateObject)
    (hfit : (Item.list e.fields).fits = true) :
    NewStateObjectFromBytes db a e.RlpEncode =
      .ok { address := a, Amount := (e.Amount.natAbs : Int), Nonce := e.Nonce % 2 ^ 64,
            state := some (NewState (NewTrie db e.rootField)),
            script := e.script, initScript := [] } := by
  have hv : NewValueFromBytes e.RlpEncode = .ok (.list e.fields) :=
    NewValueFromBytes_encodeItem (.list e.fields) hfit
  rw [NewStateObjectFromBytes_of_ok db a _ _ hv]
  simp [StateObject.fields, Value.Get, Value.BigInt, Value.Uint, Value.Bytes, Value.Interface,
    Item.ofBig, Item.ofUint, Item.ofBytes, fromBE_toBE]

/-- C1 (amended): for every address and every entity, plain account or
contract, whose balance is not negative (its nonce a `uint64`, its fields
short enough for a length prefix), `NewStateObjectFromBytes(a, e.RlpEncode())`
returns an entity with the same balance, nonce, storage root and code. -/
theorem c1_roundtrip_of_nonneg_balance (db : Db) (a : Bytes) (e : StateObject)
    (hfit : (Item.list e.fields).fits = true) (hbal : 0 ≤ e.Amount)
    (hnonce : e.Nonce < 2 ^ 64) :
    ∃ e', NewStateObjectFromBytes db a e.RlpEncode = .ok e' ∧
      e'.Amount = e.Amount ∧ e'.Nonce = e.Nonce ∧ e'.rootField = e.rootField ∧
      e'.Script = e.Script := by
  refine ⟨_, NewStateObjectFromBytes_RlpEncode db a e hfit, ?_, ?_, ?_, rfl⟩
  · show (e.Amount.natAbs : Int) = e.Amount
    omega
  · show e.Nonce % 2 ^ 64 = e.Nonce
    exact Nat.mod_eq_of_lt hnonce
  · show (NewTrie db e.rootField).Root = e.rootField
    exact NewTrie_Root db e.rootField

/-- C1, at a contract holding 1000 with code `0xAB 0xCD` and at a plain
account. -/
theorem c1_roundtrip_witness :
    (∃ e', NewStateObjectFromBytes sampleDb [0x11, 0x22]
        ({ NewContract sampleDb [0x11, 0x22] 1000 [] with script := [0xab, 0xcd] }).RlpEncode
          = .ok e' ∧
      e'.Amount = 1000 ∧ e'.Nonce = 0 ∧ e'.rootField = Item.str [] ∧ e'.Script = [0xab, 0xcd]) ∧
    (∃ e', NewStateObjectFromBytes sampleDb [0x33] (NewAccount [0x33] 7).RlpEncode = .ok e' ∧
      e'.Amount = 7 ∧ e'.Nonce = 0 ∧ e'.rootField = Item.nil ∧ e'.Script = []) :=
  ⟨c1_roundtrip_of_nonneg_balance sampleDb [0x11, 0x22]
      { NewContract sampleDb [0x11, 0x22] 1000 [] with script := [0xab, 0xcd] }
      (by decide) (by decide) (by decide),
   c1_roundtrip_of_nonneg_balance sampleDb [0x33] (NewAccount [0x33] 7)
      (by decide) (by decide) (by decide)⟩

/-- C1 fails as stated: the account `NewAccount(a, 0)` after `SubAmount(5)` has
balance `-5`; the entity loaded from its serialisation has balance `5`. -/
theorem c1_counterexample_negative_balance :
    ((NewAccount [0x33] 0).SubAmount 5).Amount = -5 ∧
    NewStateObjectFromBytes sampleDb [0x33] ((NewAccount [0x33] 0).SubAmount 5).RlpEncode =
      .ok { address := [0x33], Amount := 5, Nonce := 0,
            state := some { trie := { Root := Item.nil, entries := [] } },
            script := [], initScript := [] } := by
  decide

/-- C2 (amended): `RlpEncode` returns the codec's encoding of a list of exactly
four fields in the order balance, nonce, storage root, code. The third field
is `nil` when the entity has no sub-trie (`state` is `nil`) and is otherwise
the current root of its sub-trie, which may itself be `nil`. The address and
the init code are not part of the list: changing them changes no byte. -/
theorem c2_RlpEncode_four_fields (e : StateObject) :
    (∃ root : Item,
      e.RlpEncode =
        encodeItem (.list [Item.ofBig e.Amount, Item.ofUint e.Nonce, root, Item.ofBytes e.script]) ∧
      (e.state = none → root = Item.nil) ∧
      (∀ s, e.state = some s → root = s.trie.Root)) ∧
    (∀ address initScript : Bytes,
      ({ e with address := address, initScript := initScript }).RlpEncode = e.RlpEncode) := by
  refine ⟨⟨e.rootField, rfl, ?_, ?_⟩, fun _ _ => rfl⟩
  · intro h
    simp only [StateObject.rootField, h]
  · intro s h
    simp only [StateObject.rootField, h]

/-- C2 fails as stated: the entity loaded from the record of a plain account
has a storage sub-trie (`state` is not `nil`), and the third field of its
record is `nil`. -/
theorem c2_counterexample_nil_root_with_state :
    NewStateObjectFromBytes sampleDb [0x33] (NewAccount [0x33] 7).RlpEncode
      = .ok loadedPlainAccount ∧
    loadedPlainAccount.state ≠ none ∧
    loadedPlainAccount.fields = [Item.ofBig 7, Item.ofUint 0, Item.nil, Item.ofBytes []] ∧
    loadedPlainAccount.RlpEncode = (NewAccount [0x33] 7).RlpEncode := by
  decide

/-- C3 (amended): `NewStateObjectFromBytes` has no error result of its own and
checks no field count. It fails exactly when the codec's decoder rejects the
bytes, with the decoder's `MalformedRecord`, and then returns no entity; in
particular it fails on every non-empty truncation of a serialised record. On
all other bytes it returns the entity of the four positional reads, a missing
field reading as zero or empty and surplus fields being ignored. -/
theorem c3_load_fails_only_with_decoder :
    (∀ (db : Db) (a data : Bytes) (f : Fault),
      NewValueFromBytes data = .error f → NewStateObjectFromBytes db a data = .error f) ∧
    (∀ (db : Db) (a data : Bytes) (v : Value),
      NewValueFromBytes data = .ok v →
        NewStateObjectFromBytes db a data =
          .ok { address := a, Amount := (v.Get 0).BigInt, Nonce := (v.Get 1).Uint,
                state := some (NewState (NewTrie db (v.Get 2).Interface)),
                script := (v.Get 3).Bytes, initScript := [] }) ∧
    (∀ (db : Db) (a : Bytes) (e : StateObject) (p : Bytes),
      (Item.list e.fields).fits = true → p ≠ [] → p <+: e.RlpEncode → p ≠ e.RlpEncode →
        NewStateObjectFromBytes db a p = .error .malformedRecord) := by
  refine ⟨NewStateObjectFromBytes_of_error, NewStateObjectFromBytes_of_ok, ?_⟩
  intro db a e p hfit hp hpre hne
  exact NewStateObjectFromBytes_of_error db a p _
    (NewValueFromBytes_truncated (.list e.fields) hfit p hp hpre hne)

/-- C3, at the record of a contract cut after its fifth byte. -/
theorem c3_truncated_record_witness :
    NewStateObjectFromBytes sampleDb [0x11]
      ((({ NewContract sampleDb [0x11] 1000 [] with script := [0xab, 0xcd] }).RlpEncode).take 5)
      = .error .malformedRecord :=
  c3_load_fails_only_with_decoder.2.2 sampleDb [0x11]
    { NewContract sampleDb [0x11] 1000 [] with script := [0xab, 0xcd] } _
    (by decide) (by decide) (List.take_prefix _ _) (by decide)

/-- C3 fails as stated: the empty byte string, a list of one field and a list
of five fields are each loaded into an entity, the missing fields at their
zero values and the fifth field ignored. -/
theorem c3_counterexample_field_count :
    NewStateObjectFromBytes sampleDb [0x11] [] =
      .ok { address := [0x11], Amount := 0, Nonce := 0,
            state := some { trie := { Root := Item.nil, entries := [] } },
            script := [], initScript := [] } ∧
    NewStateObjectFromBytes sampleDb [0x11] (encodeItem (.list [Item.ofUint 7])) =
      .ok { address := [0x11], Amount := 7, Nonce := 0,
            state := some { trie := { Root := Item.nil, entries := [] } },
            script := [], initScript := [] } ∧
    NewStateObjectFromBytes sampleDb [0x11]
        (encodeItem (.list [Item.ofUint 7, Item.ofUint 1, Item.nil, Item.ofBytes [0x60],
          Item.ofBytes [0x01]])) =
      .ok { address := [0x11], Amount := 7, Nonce := 1,
            state := some { trie := { Root := Item.nil, entries := [] } },
            script := [0x60], initScript := [] } := by
  decide

/-! ## Code reads -/

theorem Int64_of_fits (x : Int) (h₁ : -2 ^ 63 ≤ x) (h₂ : x < 2 ^ 63) : Int64 x = x := by
  unfold Int64 wrapInt64
  split <;> omega

/-- An offset at or past the end of the code that fits in an `int64` reads as
the zero scalar. -/
theorem GetInstr_past_end (c : StateObject) (pc : Int)
    (h₁ : (c.script.length : Int) ≤ pc) (h₂ : pc < 2 ^ 63) :
    c.GetInstr pc = .ok (Item.ofUint 0) := by
  have hpc : Int64 pc = pc := Int64_of_fits pc (by omega) h₂
  unfold StateObject.GetInstr
  rw [hpc, if_pos (by omega)]
  rfl

/-- An offset inside the code reads the byte there, when that byte is below
`0x80` and so is its own encoding. -/
theorem GetInstr_in_bounds (c : StateObject) (pc : Nat) (h : pc < c.script.length)
    (hlen : c.script.length < 2 ^ 63) (hb : c.script.getD pc 0 < 0x80) :
    c.GetInstr (pc : Int) = .ok (Item.str [c.script.getD pc 0]) := by
  have hpc : Int64 (pc : Int) = (pc : Int) := Int64_of_fits _ (by omega) (by omega)
  unfold StateObject.GetInstr
  rw [hpc, if_neg (by omega), if_pos (by omega)]
  simp only [Int.toNat_ofNat]
  unfold NewValueFromBytes
  simp only [List.length_singleton]
  rw [decodeItem_succ_cons]
  unfold decodeHeader
  rw [if_pos hb]

/-- C4, the code at the failing inputs: on the one-byte code `0x2A` the offset
`2 ^ 64`, past the end, reads the byte at offset `0` and not the zero scalar;
on the code `0xAB 0xCD` the offset `0`, in bounds, is a fault and not the
scalar `0xAB`, the byte being handed to the decoder as a length prefix. -/
theorem c4_GetInstr_at_failing_inputs :
    ({ NewAccount [0x11] 0 with script := [0x2a] }).GetInstr (2 ^ 64) = .ok (Item.str [0x2a]) ∧
    Item.str [0x2a] ≠ Item.ofUint 0 ∧
    ({ NewAccount [0x11] 0 with script := [0xab, 0xcd] }).GetInstr 0
      = .error .malformedRecord := by
  decide

/-- C5, the code at the failing input: at the offset `-1` the guard does not
fire, for any entity, and the index expression is evaluated out of range. -/
theorem c5_GetInstr_negative_offset_faults (c : StateObject) :
    c.GetInstr (-1) = .error .indexOutOfRange := by
  have hpc : Int64 (-1) = -1 := by decide
  unfold StateObject.GetInstr
  rw [hpc, if_neg (by omega), if_neg (by omega)]

/-! ## Storage -/

theorem Trie.Get_Update_same (db : Db) (t : Trie) (key value : Bytes) :
    (t.Update db key value).Get key = value := by
  simp [Trie.Get, Trie.Update]

theorem find?_filter_of_imp {α : Type} (p q : α → Bool) (l : List α)
    (h : ∀ x, p x = true → q x = true) : (l.filter q).find? p = l.find? p := by
  induction l with
  | nil => rfl
  | cons a l ih =>
    by_cases hq : q a = true
    · rw [List.filter_cons_of_pos hq]
      by_cases hp : p a = true
      · rw [List.find?_cons_of_pos _ hp, List.find?_cons_of_pos _ hp]
      · rw [List.find?_cons_of_neg _ hp, List.find?_cons_of_neg _ hp, ih]
    · rw [List.filter_cons_of_neg hq]
      have hp : ¬ p a = true := fun hp => hq (h a hp)
      rw [List.find?_cons_of_neg _ hp, ih]

theorem Trie.Get_Update_other (db : Db) (t : Trie) (key key' value : Bytes) (h : key' ≠ key) :
    (t.Update db key value).Get key' = t.Get key' := by
  have hne : ¬ key = key' := fun h' => h h'.symm
  have hfind : List.find? (fun p => decide (p.1 = key'))
      (List.filter (fun p => decide (¬ p.1 = key)) t.entries) =
      List.find? (fun p => decide (p.1 = key')) t.entries := by
    apply find?_filter_of_imp
    intro x hx
    have hx' : x.1 = key' := of_decide_eq_true hx
    exact decide_eq_true (fun hk => h (hx'.symm.trans hk))
  unfold Trie.Get Trie.Update
  simp only
  rw [List.find?_cons_of_neg _ (by simpa using hne), hfind]

theorem BigToBytes_fromBE (num : Int) (base : Nat) :
    fromBE (BigToBytes num base) = num.natAbs % 2 ^ base := by
  unfold BigToBytes
  simp only [fromBE_replicate_zero_append, fromBE_toBE]

/-- Distinct keys in `[0, 2 ^ 256)` have distinct 32-byte encodings. -/
theorem BigToBytes_injective (k k₂ : Int) (hk : 0 ≤ k ∧ k < 2 ^ 256)
    (hk₂ : 0 ≤ k₂ ∧ k₂ < 2 ^ 256) (h : BigToBytes k₂ 256 = BigToBytes k 256) : k₂ = k := by
  have h' := congrArg fromBE h
  rw [BigToBytes_fromBE, BigToBytes_fromBE] at h'
  have e₁ : k.natAbs % 2 ^ 256 = k.natAbs := Nat.mod_eq_of_lt (by omega)
  have e₂ : k₂.natAbs % 2 ^ 256 = k₂.natAbs := Nat.mod_eq_of_lt (by omega)
  rw [e₁, e₂] at h'
  omega

/-- A write to the slot whose key encodes as `key` followed by a read of it. -/
theorem SetMem_GetMem_same (db : Db) (c : StateObject) (s : State) (hs : c.state = some s)
    (k : Int) (v : Value) (hv : v.fits = true) :
    ∃ c₁ s₁, c.SetMem db k v = .ok c₁ ∧ c₁.state = some s₁ ∧
      s₁.trie.Get (BigToBytes k 256) = v.Encode ∧ c₁.GetMem k = .ok v := by
  refine ⟨{ c with state := some { s with trie := s.trie.Update db (BigToBytes k 256) v.Encode } },
    { s with trie := s.trie.Update db (BigToBytes k 256) v.Encode },
    by simp only [StateObject.SetMem, hs], rfl, Trie.Get_Update_same _ _ _ _, ?_⟩
  simp only [StateObject.GetMem, StateObject.Addr, Trie.Get_Update_same, Value.Encode]
  exact NewValueFromBytes_encodeItem v hv

/-- C6 (amended): on a contract entity, `GetMem(k)` after `SetMem(k, v)` returns
`v`, for every key `k` and every scalar `v`; it still returns `v` after an
intervening `SetMem(k2, v2)` when `k` and `k2` are different keys in
`[0, 2 ^ 256)`, the range of the 256-bit key encoding. -/
theorem c6_storage_write_then_read (db : Db) (c : StateObject) (s : State)
    (hs : c.state = some s) (k : Int) (v : Value) (hv : v.fits = true) :
    ∃ c₁, c.SetMem db k v = .ok c₁ ∧ c₁.GetMem k = .ok v ∧
      ∀ (k₂ : Int) (v₂ : Value), 0 ≤ k ∧ k < 2 ^ 256 → 0 ≤ k₂ ∧ k₂ < 2 ^ 256 → k₂ ≠ k →
        ∃ c₂, c₁.SetMem db k₂ v₂ = .ok c₂ ∧ c₂.GetMem k = .ok v := by
  obtain ⟨c₁, s₁, h₁, hs₁, hget, hmem⟩ := SetMem_GetMem_same db c s hs k v hv
  refine ⟨c₁, h₁, hmem, ?_⟩
  intro k₂ v₂ hk hk₂ hne
  have hkey : BigToBytes k 256 ≠ BigToBytes k₂ 256 :=
    fun h => hne (BigToBytes_injective k k₂ hk hk₂ h.symm)
  refine ⟨{ c₁ with
      state := some { s₁ with trie := s₁.trie.Update db (BigToBytes k₂ 256) v₂.Encode } },
    by simp only [StateObject.SetMem, hs₁], ?_⟩
  simp only [StateObject.GetMem, StateObject.Addr]
  rw [Trie.Get_Update_other db s₁.trie _ _ _ hkey, hget]
  exact NewValueFromBytes_encodeItem v hv

/-- C6, on a fresh contract: slot `1` set to `5`, then slot `2` set to `9`. -/
theorem c6_storage_witness :
    ∃ c₁, (NewContract sampleDb [0x11] 0 []).SetMem sampleDb 1 (Item.ofUint 5) = .ok c₁ ∧
      c₁.GetMem 1 = .ok (Item.ofUint 5) ∧
      ∃ c₂, c₁.SetMem sampleDb 2 (Item.ofUint 9) = .ok c₂ ∧ c₂.GetMem 1 = .ok (Item.ofUint 5) := by
  obtain ⟨c₁, h₁, h₂, h₃⟩ :=
    c6_storage_write_then_read sampleDb (NewContract sampleDb [0x11] 0 []) _ rfl 1
      (Item.ofUint 5) (by decide)
  exact ⟨c₁, h₁, h₂, h₃ 2 (Item.ofUint 9) (by norm_num) (by norm_num) (by norm_num)⟩

/-- C6 fails as stated: the keys `1` and `-1` are different integers with the
same 32-byte encoding, so after `SetMem(1, 5)` and `SetMem(-1, 9)` the read
`GetMem(1)` returns `9`. -/
theorem c6_counterexample_key_collision :
    BigToBytes (-1) 256 = BigToBytes 1 256 ∧
    ∃ c₁ c₂, (NewContract sampleDb [0x11] 0 []).SetMem sampleDb 1 (Item.ofUint 5) = .ok c₁ ∧
      c₁.SetMem sampleDb (-1) (Item.ofUint 9) = .ok c₂ ∧
      c₂.GetMem 1 = .ok (Item.ofUint 9) ∧ Item.ofUint 9 ≠ Item.ofUint 5 :=
  ⟨by decide, _, _, rfl, rfl, by decide, by decide⟩

/-- C7: on a contract freshly built by `NewContract` with the empty root,
`GetMem(k)` returns the empty value, which reads as the number `0` and as the
empty byte string, for every key `k`. -/
theorem c7_fresh_contract_storage_default (db : Db) (address : Bytes) (Amount k : Int) :
    (NewContract db address Amount []).GetMem k = .ok Item.nil ∧
    Value.BigInt Item.nil = 0 ∧ Value.Uint Item.nil = 0 ∧ Value.Bytes Item.nil = [] := by
  refine ⟨?_, rfl, rfl, rfl⟩
  rfl

/-- C8, the code at the failing input: on a plain account built by `NewAccount`
both `GetMem(k)` and `Addr(key)` dereference the `nil` `state`. -/
theorem c8_reads_fault_on_plain_account (address : Bytes) (amount k : Int) (key : Bytes) :
    (NewAccount address amount).GetMem k = .error .nilDereference ∧
    (NewAccount address amount).Addr key = .error .nilDereference :=
  ⟨rfl, rfl⟩

/-! ## Contract creation -/

/-- What `MakeContract` returns for a contract-creation transaction. -/
theorem MakeContract_of_IsContract (db : Db) (tx : Transaction) (state : State)
    (hc : tx.IsContract = true) (hH : 12 ≤ tx.Hash.length) :
    ∃ state', MakeContract db tx state =
      .ok (some { address := tx.Hash.drop 12, Amount := tx.Value, Nonce := 0,
                  state := some (NewState (NewTrie db (Item.ofBytes []))),
                  script := tx.Data, initScript := tx.Init }, state') := by
  unfold MakeContract
  rw [if_pos hc, if_neg (by omega)]
  exact ⟨_, rfl⟩

/-- C9: for contract-creation transactions whose content hash `H` is 32 bytes,
the entity returned by `MakeContract` has address `H[12:32]`, 20 bytes long;
two of them get the same address only if the last 20 bytes of their hashes
coincide. -/
theorem c9_contract_address (db : Db) (tx₁ tx₂ : Transaction) (state₁ state₂ : State)
    (hc₁ : tx₁.IsContract = true) (hc₂ : tx₂.IsContract = true)
    (hH₁ : tx₁.Hash.length = 32) (hH₂ : tx₂.Hash.length = 32) :
    ∃ c₁ c₂ s₁ s₂, MakeContract db tx₁ state₁ = .ok (some c₁, s₁) ∧
      MakeContract db tx₂ state₂ = .ok (some c₂, s₂) ∧
      c₁.Address = (tx₁.Hash.take 32).drop 12 ∧ c₁.Address.length = 20 ∧
      c₂.Address = (tx₂.Hash.take 32).drop 12 ∧ c₂.Address.length = 20 ∧
      (c₁.Address = c₂.Address → tx₁.Hash.drop 12 = tx₂.Hash.drop 12) := by
  obtain ⟨s₁, h₁⟩ := MakeContract_of_IsContract db tx₁ state₁ hc₁ (by omega)
  obtain ⟨s₂, h₂⟩ := MakeContract_of_IsContract db tx₂ state₂ hc₂ (by omega)
  refine ⟨_, _, s₁, s₂, h₁, h₂, ?_, ?_, ?_, ?_, fun h => h⟩
  · show tx₁.Hash.drop 12 = (tx₁.Hash.take 32).drop 12
    rw [List.take_of_length_le (by omega)]
  · show (tx₁.Hash.drop 12).length = 20
    rw [List.length_drop]
    omega
  · show tx₂.Hash.drop 12 = (tx₂.Hash.take 32).drop 12
    rw [List.take_of_length_le (by omega)]
  · show (tx₂.Hash.drop 12).length = 20
    rw [List.length_drop]
    omega

/-- C9, at two sample contract-creation transactions. -/
theorem c9_contract_address_witness :
    ∃ c₁ c₂ s₁ s₂, MakeContract sampleDb sampleTx sampleState = .ok (some c₁, s₁) ∧
      MakeContract sampleDb sampleTx₂ sampleState = .ok (some c₂, s₂) ∧
      c₁.Address = (sampleTx.Hash.take 32).drop 12 ∧ c₁.Address.length = 20 ∧
      c₂.Address = (sampleTx₂.Hash.take 32).drop 12 ∧ c₂.Address.length = 20 ∧
      (c₁.Address = c₂.Address → sampleTx.Hash.drop 12 = sampleTx₂.Hash.drop 12) :=
  c9_contract_address sampleDb sampleTx sampleTx₂ sampleState sampleState
    (by decide) (by decide) (by decide) (by decide)

/-- C10: for every contract-creation transaction (no recipient, a 32-byte
content hash), the entity returned by `MakeContract` has balance `tx.Value`,
nonce `0`, code `tx.Data`, init code `tx.Init`, and a storage sub-trie, not
`nil`, opened at the empty root and holding nothing. -/
theorem c10_contract_fields (db : Db) (tx : Transaction) (state : State)
    (hc : tx.IsContract = true) (hH : tx.Hash.length = 32) :
    ∃ c state', MakeContract db tx state = .ok (some c, state') ∧
      c.Amount = tx.Value ∧ c.Nonce = 0 ∧ c.Script = tx.Data ∧ c.Init = tx.Init ∧
      c.state = some { trie := { Root := Item.ofBytes [], entries := [] } } := by
  obtain ⟨s, h⟩ := MakeContract_of_IsContract db tx state hc (by omega)
  exact ⟨_, s, h, rfl, rfl, rfl, rfl, rfl⟩

/-- C10, at the transaction with value `1000`, code `0xAB 0xCD` and init code
`0x00`. -/
theorem c10_contract_fields_witness :
    ∃ c state', MakeContract sampleDb sampleTx sampleState = .ok (some c, state') ∧
      c.Amount = sampleTx.Value ∧ c.Nonce = 0 ∧ c.Script = sampleTx.Data ∧
      c.Init = sampleTx.Init ∧
      c.state = some { trie := { Root := Item.ofBytes [], entries := [] } } :=
  c10_contract_fields sampleDb sampleTx sampleState (by decide) (by decide)

/-! ## The persisted record of a new contract -/

/-- Loading the serialisation of an entity and serialising the result gives
the same bytes. -/
theorem RlpEncode_of_loaded (db : Db) (a : Bytes) (e : StateObject)
    (hfit : (Item.list e.fields).fits = true) (hnonce : e.Nonce < 2 ^ 64) :
    ∃ e', NewStateObjectFromBytes db a e.RlpEncode = .ok e' ∧ e'.RlpEncode = e.RlpEncode := by
  refine ⟨_, NewStateObjectFromBytes_RlpEncode db a e hfit, ?_⟩
  simp only [StateObject.RlpEncode, StateObject.fields, StateObject.rootField, NewState,
    NewTrie_Root, Item.ofBig, Int.natAbs_ofNat, Nat.mod_eq_of_lt hnonce]

/-- What `MakeContract` leaves in the State Store: the second write, under the
address of the returned entity. -/
theorem MakeContract_stored (db : Db) (tx : Transaction) (state : State)
    (hc : tx.IsContract = true) (hH : 12 ≤ tx.Hash.length) :
    ∃ c state', MakeContract db tx state = .ok (some c, state') ∧
      c = { address := tx.Hash.drop 12, Amount := tx.Value, Nonce := 0,
            state := some (NewState (NewTrie db (Item.ofBytes []))),
            script := tx.Data, initScript := tx.Init } ∧
      state'.trie.Get c.Address = c.RlpEncode := by
  unfold MakeContract
  rw [if_pos hc, if_neg (by omega)]
  refine ⟨_, _, rfl, rfl, ?_⟩
  simp only [State.UpdateStateObject, StateObject.Address, NewContract]
  exact Trie.Get_Update_same _ _ _ _

/-- C11: after `MakeContract` on a contract-creation transaction (32-byte
content hash, value and code short enough for a length prefix), the State
Store holds at the derived address the serialisation of the returned entity,
code attached; loading that value with `NewStateObjectFromBytes` and
serialising the result gives identical bytes. -/
theorem c11_stored_record_roundtrip (db : Db) (tx : Transaction) (state : State)
    (hc : tx.IsContract = true) (hH : tx.Hash.length = 32)
    (hfit : (Item.list [Item.ofBig tx.Value, Item.ofUint 0, Item.ofBytes [],
      Item.ofBytes tx.Data]).fits = true) :
    ∃ c state', MakeContract db tx state = .ok (some c, state') ∧
      c.Script = tx.Data ∧
      state'.trie.Get c.Address = c.RlpEncode ∧
      ∃ e', NewStateObjectFromBytes db c.Address (state'.trie.Get c.Address) = .ok e' ∧
        e'.RlpEncode = state'.trie.Get c.Address := by
  obtain ⟨c, state', hmk, hcdef, hget⟩ := MakeContract_stored db tx state hc (by omega)
  have hfit' : (Item.list c.fields).fits = true := by
    rw [hcdef]
    exact hfit
  have hnonce : c.Nonce < 2 ^ 64 := by
    rw [hcdef]
    show 0 < 2 ^ 64
    norm_num
  obtain ⟨e', hload, henc⟩ := RlpEncode_of_loaded db c.Address c hfit' hnonce
  refine ⟨c, state', hmk, by rw [hcdef]; rfl, hget, e', ?_, ?_⟩
  · rw [hget]
    exact hload
  · rw [hget]
    exact henc

/-- C11, at the transaction with value `1000`, code `0xAB 0xCD` and init code
`0x00`. -/
theorem c11_stored_record_witness :
    ∃ c state', MakeContract sampleDb sampleTx sampleState = .ok (some c, state') ∧
      c.Script = sampleTx.Data ∧
      state'.trie.Get c.Address = c.RlpEncode ∧
      ∃ e', NewStateObjectFromBytes sampleDb c.Address (state'.trie.Get c.Address) = .ok e' ∧
        e'.RlpEncode = state'.trie.Get c.Address :=
  c11_stored_record_roundtrip sampleDb sampleTx sampleState (by decide) (by decide) (by decide)

/-- C12: for a transaction with an explicit recipient, `MakeContract` returns
`nil` and the State Store it was given, unchanged. -/
theorem c12_recipient_is_noop (db : Db) (tx : Transaction) (state : State)
    (hc : tx.IsContract = false) :
    MakeContract db tx state = .ok (none, state) := by
  unfold MakeContract
  rw [hc]
  rfl

/-- C12, at a transfer of `5` to the recipient `0x99`. -/
theorem c12_recipient_is_noop_witness :
    MakeContract sampleDb sampleTransfer sampleState = .ok (none, sampleState) :=
  c12_recipient_is_noop sampleDb sampleTransfer sampleState (by decide)

/-! ## The object cache -/

theorem StateObjectCache.Get_Add_same (s : StateObjectCache) (a : Bytes) (e : StateObject) :
    (s.Add a e).2.Get a = some { Nonce := e.Nonce, Object := e } := by
  simp [StateObjectCache.Get, StateObjectCache.Add]

theorem StateObjectCache.Get_Add_other (s : StateObjectCache) (a b : Bytes) (e : StateObject)
    (h : a ≠ b) : (s.Add a e).2.Get b = s.Get b := by
  have hfind : List.find? (fun p => decide (p.1 = b))
      (List.filter (fun p => decide (¬ p.1 = a)) s.cachedObjects) =
      List.find? (fun p => decide (p.1 = b)) s.cachedObjects := by
    apply find?_filter_of_imp
    intro x hx
    have hx' : x.1 = b := of_decide_eq_true hx
    exact decide_eq_true (fun hk => h (hk.symm.trans hx'))
  unfold StateObjectCache.Get StateObjectCache.Add
  simp only
  rw [List.find?_cons_of_neg _ (by simpa using h), hfind]

/-- A second `Add` for an address leaves the map that the second `Add` alone
would leave: the earlier record is replaced, not merged. -/
theorem StateObjectCache.Add_Add_same (s : StateObjectCache) (a : Bytes) (e e₂ : StateObject) :
    ((s.Add a e).2.Add a e₂).2 = (s.Add a e₂).2 := by
  simp [StateObjectCache.Add, List.filter_filter]

/-- An address that no `Add` of a sequence names stays absent. -/
theorem StateObjectCache.Get_foldl_other (a : Bytes) (adds : List (Bytes × StateObject))
    (h : ∀ p ∈ adds, p.1 ≠ a) (s : StateObjectCache) :
    (adds.foldl (fun c p => (c.Add p.1 p.2).2) s).Get a = s.Get a := by
  induction adds generalizing s with
  | nil => rfl
  | cons p ps ih =>
    rw [List.foldl_cons, ih (fun q hq => h q (List.mem_cons_of_mem p hq))]
    exact StateObjectCache.Get_Add_other s p.1 a p.2 (h p (List.mem_cons_self p ps))

/-- C13: `Add(a, e)` returns the record with `e`'s nonce and `e` for its object,
and a following `Get(a)` returns that record; after further `Add` calls for
the same address `Get` returns the record of the most recent one, the map
being the one that `Add` alone would leave; `Get` of an address that was never
added returns `nil`. -/
theorem c13_cache_add_then_get (s : StateObjectCache) (a : Bytes) (e e₂ : StateObject) :
    (s.Add a e).1 = { Nonce := e.Nonce, Object := e } ∧
    (s.Add a e).2.Get a = some (s.Add a e).1 ∧
    ((s.Add a e).2.Add a e₂).2.Get a = some ((s.Add a e).2.Add a e₂).1 ∧
    ((s.Add a e).2.Add a e₂).1 = { Nonce := e₂.Nonce, Object := e₂ } ∧
    ((s.Add a e).2.Add a e₂).2 = (s.Add a e₂).2 ∧
    (∀ es : List StateObject,
      ((es.foldl (fun c x => (c.Add a x).2) s).Add a e₂).2.Get a
        = some { Nonce := e₂.Nonce, Object := e₂ }) ∧
    NewStateObjectCache.Get a = none ∧
    (∀ adds : List (Bytes × StateObject), (∀ p ∈ adds, p.1 ≠ a) →
      (adds.foldl (fun c p => (c.Add p.1 p.2).2) NewStateObjectCache).Get a = none) := by
  refine ⟨rfl, StateObjectCache.Get_Add_same s a e, StateObjectCache.Get_Add_same _ a e₂, rfl,
    StateObjectCache.Add_Add_same s a e e₂, fun es => StateObjectCache.Get_Add_same _ a e₂, rfl, ?_⟩
  intro adds h
  rw [StateObjectCache.Get_foldl_other a adds h]
  rfl

/-- C14: an `Add` for the address `a` does not change what `Get` returns for
an address `b` with other bytes, present or absent. -/
theorem c14_cache_non_interference (s : StateObjectCache) (a b : Bytes) (e : StateObject)
    (h : a ≠ b) : (s.Add a e).2.Get b = s.Get b :=
  StateObjectCache.Get_Add_other s a b e h

/-- C14, on the cache holding a record for `0x22` only: adding `0x11` changes
neither the present `0x22` nor the absent `0x33`. -/
theorem c14_cache_non_interference_witness :
    (((NewStateObjectCache.Add [0x22] (NewAccount [0x22] 5)).2.Add [0x11]
        (NewAccount [0x11] 7)).2.Get [0x22]
      = (NewStateObjectCache.Add [0x22] (NewAccount [0x22] 5)).2.Get [0x22]) ∧
    (NewStateObjectCache.Add [0x22] (NewAccount [0x22] 5)).2.Get [0x22]
      = some { Nonce := 0, Object := NewAccount [0x22] 5 } ∧
    (((NewStateObjectCache.Add [0x22] (NewAccount [0x22] 5)).2.Add [0x11]
        (NewAccount [0x11] 7)).2.Get [0x33]
      = (NewStateObjectCache.Add [0x22] (NewAccount [0x22] 5)).2.Get [0x33]) ∧
    (NewStateObjectCache.Add [0x22] (NewAccount [0x22] 5)).2.Get [0x33] = none :=
  ⟨c14_cache_non_interference _ [0x11] [0x22] _ (by decide), by decide,
   c14_cache_non_interference _ [0x11] [0x33] _ (by decide), by decide⟩

/-! ## Balance -/

/-- C15 (amended): `AddAmount(x)` leaves the balance `b + x` and `SubAmount(x)`
leaves it `b - x`, over the integers and for every `x`, also when `x > b`,
whether or not `x` is the entity's own `Amount`; neither can fail. `AddAmount(x)`
followed by `SubAmount(x)` restores the balance, and the entity, when `x` is
not the `big.Int` the entity's `Amount` points to, and leaves `x` as it was;
when it is that `big.Int`, the pair leaves the balance `0`. -/
theorem c15_balance_arithmetic_in_place (cells : BigInts) (balance amount : Nat)
    (c : StateObject) (x : Int) :
    (AddAmountInPlace cells balance amount) balance = cells balance + cells amount ∧
    (SubAmountInPlace cells balance amount) balance = cells balance - cells amount ∧
    (cells balance < cells amount → (SubAmountInPlace cells balance amount) balance < 0) ∧
    (amount ≠ balance →
      (SubAmountInPlace (AddAmountInPlace cells balance amount) balance amount) balance
        = cells balance ∧
      (SubAmountInPlace (AddAmountInPlace cells balance amount) balance amount) amount
        = cells amount) ∧
    (amount = balance →
      (AddAmountInPlace cells balance amount) balance = 2 * cells balance ∧
      (SubAmountInPlace (AddAmountInPlace cells balance amount) balance amount) balance = 0) ∧
    (amount ≠ balance →
      (AddAmountInPlace cells balance amount) balance
        = (({ c with Amount := cells balance }).AddAmount (cells amount)).Amount ∧
      (SubAmountInPlace cells balance amount) balance
        = (({ c with Amount := cells balance }).SubAmount (cells amount)).Amount) ∧
    (c.AddAmount x).Amount = c.Amount + x ∧
    (c.SubAmount x).Amount = c.Amount - x ∧
    (c.AddAmount x).SubAmount x = c := by
  refine ⟨?_, ?_, ?_, ?_, ?_, ?_, rfl, rfl, ?_⟩
  · simp only [AddAmountInPlace, if_pos]
  · simp only [SubAmountInPlace, if_pos]
  · intro h
    simp only [SubAmountInPlace, if_pos]
    omega
  · intro h
    simp only [SubAmountInPlace, AddAmountInPlace, if_pos, if_neg h]
    exact ⟨by omega, trivial⟩
  · intro h
    subst h
    simp only [SubAmountInPlace, AddAmountInPlace, if_pos]
    exact ⟨by omega, by omega⟩
  · intro h
    simp only [SubAmountInPlace, AddAmountInPlace, if_pos]
    exact ⟨rfl, rfl⟩
  · show ({ c with Amount := c.Amount + x - x } : StateObject) = c
    rw [Int.add_sub_cancel]

/-- C15, on the cells `5` and `3`: crediting and debiting the second cell on
the first restores `5` and leaves `3`. -/
theorem c15_balance_arithmetic_witness :
    (SubAmountInPlace (AddAmountInPlace sampleCells 0 1) 0 1) 0 = sampleCells 0 ∧
    (SubAmountInPlace (AddAmountInPlace sampleCells 0 1) 0 1) 1 = sampleCells 1 ∧
    sampleCells 0 = 5 ∧ sampleCells 1 = 3 ∧ (AddAmountInPlace sampleCells 0 1) 0 = 8 :=
  ⟨((c15_balance_arithmetic_in_place sampleCells 0 1 (NewAccount [0x11] 5) 3).2.2.2.1
      (by decide)).1,
   ((c15_balance_arithmetic_in_place sampleCells 0 1 (NewAccount [0x11] 5) 3).2.2.2.1
      (by decide)).2,
   by decide, by decide, by decide⟩

/-- C15 fails as stated: with the balance `5` and the argument the entity's own
`Amount`, as after `NewAccount(a, v)` followed by `AddAmount(v)` and
`SubAmount(v)` on the one `v`, `AddAmount` leaves `10` and `SubAmount` then
leaves `0`, not `5`. -/
theorem c15_counterexample_shared_amount :
    sampleCells 0 = 5 ∧
    (AddAmountInPlace sampleCells 0 0) 0 = 10 ∧
    (SubAmountInPlace (AddAmountInPlace sampleCells 0 0) 0 0) 0 = 0 := by
  decide

/-- C16: `ReturnGas(amount, state)` leaves the entity exactly as
`AddAmount(amount)` does, whatever the `State` argument is, `nil` included; the
argument is not read, and no new state comes out of the call. -/
theorem c16_ReturnGas_is_AddAmount (c : StateObject) (amount : Int)
    (state state' : Option State) :
    c.ReturnGas amount state = c.AddAmount amount ∧
    c.ReturnGas amount none = c.AddAmount amount ∧
    c.ReturnGas amount state = c.ReturnGas amount state' :=
  ⟨rfl, rfl, rfl⟩

/-! ## Nonce and init code -/

/-- What `RlpDecode` leaves in the receiver: the four decoded fields, with the
address and the init code it had. -/
theorem RlpDecode_of_ok (db : Db) (c : StateObject) (data : Bytes) (decoder : Value)
    (h : NewValueFromBytes data = .ok decoder) :
    c.RlpDecode db data =
      .ok { address := c.address, Amount := (decoder.Get 0).BigInt,
            Nonce := (decoder.Get 1).Uint,
            state := some (NewState (NewTrie db (decoder.Get 2).Interface)),
            script := (decoder.Get 3).Bytes, initScript := c.initScript } := by
  simp only [StateObject.RlpDecode, h]

theorem RlpDecode_ok_inv (db : Db) (c c' : StateObject) (data : Bytes)
    (h : c.RlpDecode db data = .ok c') :
    ∃ decoder, NewValueFromBytes data = .ok decoder ∧
      c' = { address := c.address, Amount := (decoder.Get 0).BigInt,
             Nonce := (decoder.Get 1).Uint,
             state := some (NewState (NewTrie db (decoder.Get 2).Interface)),
             script := (decoder.Get 3).Bytes, initScript := c.initScript } := by
  cases hv : NewValueFromBytes data with
  | error f =>
    simp only [StateObject.RlpDecode, hv] at h
    cases h
  | ok decoder =>
    rw [RlpDecode_of_ok db c data decoder hv] at h
    injection h with h
    exact ⟨decoder, rfl, h.symm⟩

theorem SetMem_ok_inv (db : Db) (c c' : StateObject) (num : Int) (val : Value)
    (h : c.SetMem db num val = .ok c') :
    ∃ s, c.state = some s ∧
      c' = { c with state := some { s with
        trie := s.trie.Update db (BigToBytes num 256) val.Encode } } := by
  unfold StateObject.SetMem at h
  cases hs : c.state with
  | none =>
    rw [hs] at h
    cases h
  | some s =>
    rw [hs] at h
    injection h with h
    exact ⟨s, rfl, h.symm⟩

theorem SetAddr_ok_inv (db : Db) (c c' : StateObject) (addr : Bytes) (value : Item)
    (h : c.SetAddr db addr value = .ok c') :
    ∃ s, c.state = some s ∧
      c' = { c with state := some { s with
        trie := s.trie.Update db addr (NewValue value).Encode } } := by
  unfold StateObject.SetAddr at h
  cases hs : c.state with
  | none =>
    rw [hs] at h
    cases h
  | some s =>
    rw [hs] at h
    injection h with h
    exact ⟨s, rfl, h.symm⟩

/-- C17 (amended): `AddAmount`, `SubAmount`, `ReturnGas`, `SetMem` and `SetAddr`
leave the nonce of the entity as it was. `RlpDecode` replaces it with the nonce
read from the given bytes, whatever the nonce was before. -/
theorem c17_nonce_after_operations :
    (∀ (c : StateObject) (x : Int), (c.AddAmount x).Nonce = c.Nonce) ∧
    (∀ (c : StateObject) (x : Int), (c.SubAmount x).Nonce = c.Nonce) ∧
    (∀ (c : StateObject) (x : Int) (state : Option State),
      (c.ReturnGas x state).Nonce = c.Nonce) ∧
    (∀ (db : Db) (c c' : StateObject) (num : Int) (val : Value),
      c.SetMem db num val = .ok c' → c'.Nonce = c.Nonce) ∧
    (∀ (db : Db) (c c' : StateObject) (addr : Bytes) (value : Item),
      c.SetAddr db addr value = .ok c' → c'.Nonce = c.Nonce) ∧
    (∀ (db : Db) (c c' : StateObject) (data : Bytes),
      c.RlpDecode db data = .ok c' →
        ∃ decoder, NewValueFromBytes data = .ok decoder ∧ c'.Nonce = (decoder.Get 1).Uint) := by
  refine ⟨fun _ _ => rfl, fun _ _ => rfl, fun _ _ _ => rfl, ?_, ?_, ?_⟩
  · intro db c c' num val h
    obtain ⟨s, _, hc'⟩ := SetMem_ok_inv db c c' num val h
    rw [hc']
  · intro db c c' addr value h
    obtain ⟨s, _, hc'⟩ := SetAddr_ok_inv db c c' addr value h
    rw [hc']
  · intro db c c' data h
    obtain ⟨decoder, hd, hc'⟩ := RlpDecode_ok_inv db c c' data h
    exact ⟨decoder, hd, by rw [hc']⟩

/-- C17, at an entity with nonce `5` on which slot `1` is set and whose record
is then decoded back into it. -/
theorem c17_nonce_witness :
    (∀ c', nonceFiveContract.SetMem sampleDb 1 (Item.ofUint 9) = .ok c' → c'.Nonce = 5) ∧
    (∀ c', nonceFiveContract.RlpDecode sampleDb nonceFiveContract.RlpEncode = .ok c' →
      ∃ decoder, NewValueFromBytes nonceFiveContract.RlpEncode = .ok decoder ∧
        c'.Nonce = (decoder.Get 1).Uint) ∧
    nonceFiveContract.RlpDecode sampleDb nonceFiveContract.RlpEncode = .ok nonceFiveContract :=
  ⟨fun c' h => c17_nonce_after_operations.2.2.2.1 sampleDb nonceFiveContract c' 1 _ h,
   fun c' h => c17_nonce_after_operations.2.2.2.2.2 sampleDb nonceFiveContract c' _ h,
   by decide⟩

/-- C17 fails as stated: the entity loaded from a record with nonce `5` has
nonce `5`; `RlpDecode` of the record of a fresh account on it leaves nonce
`0`. -/
theorem c17_counterexample_RlpDecode_resets_nonce :
    NewStateObjectFromBytes sampleDb [0x11] nonceFiveContract.RlpEncode = .ok nonceFiveContract ∧
    nonceFiveContract.Nonce = 5 ∧
    nonceFiveContract.RlpDecode sampleDb (NewAccount [0x11] 7).RlpEncode =
      .ok { address := [0x11], Amount := 7, Nonce := 0,
            state := some { trie := { Root := Item.nil, entries := [] } },
            script := [], initScript := [] } := by
  decide

/-- Whatever the bytes and the decoder, a loaded entity has no init code. -/
theorem NewStateObjectFromBytes_Init (db : Db) (a data : Bytes) (e : StateObject)
    (h : NewStateObjectFromBytes db a data = .ok e) : e.Init = [] := by
  obtain ⟨decoder, _, he⟩ := RlpDecode_ok_inv db _ e data h
  rw [he]
  rfl

/-- C18 (amended): the init code is not part of the persisted record. The bytes
`e.RlpEncode()` do not depend on it, and the entity that
`NewStateObjectFromBytes(a, e.RlpEncode())` returns has no init code: its
`Init()` equals that of `e` only when `e` has none. -/
theorem c18_init_code_not_persisted (db : Db) (a : Bytes) (e : StateObject)
    (hfit : (Item.list e.fields).fits = true) :
    (∀ init : Bytes, ({ e with initScript := init }).RlpEncode = e.RlpEncode) ∧
    ∃ e', NewStateObjectFromBytes db a e.RlpEncode = .ok e' ∧ e'.Init = [] ∧
      (e'.Init = e.Init ↔ e.Init = []) := by
  refine ⟨fun _ => rfl, _, NewStateObjectFromBytes_RlpEncode db a e hfit, rfl, ?_⟩
  show ([] : Bytes) = e.Init ↔ e.Init = []
  exact eq_comm

/-- C18, at the contract made from the transaction with init code `0x00`. -/
theorem c18_init_code_witness :
    (∀ init : Bytes, ({ sampleContract with initScript := init }).RlpEncode
      = sampleContract.RlpEncode) ∧
    ∃ e', NewStateObjectFromBytes sampleDb sampleContract.Address sampleContract.RlpEncode
        = .ok e' ∧ e'.Init = [] ∧ (e'.Init = sampleContract.Init ↔ sampleContract.Init = []) :=
  c18_init_code_not_persisted sampleDb sampleContract.Address sampleContract (by decide)

/-- C18 fails as stated: the contract `MakeContract` returns for the transaction
with init code `0x00` has `Init()` equal to `0x00`; the entity loaded from its
record has the empty `Init()`. -/
theorem c18_counterexample_init_code_lost :
    (MakeContract sampleDb sampleTx sampleState).map (fun r => r.1) = .ok (some sampleContract) ∧
    sampleContract.Init = [0x00] ∧
    NewStateObjectFromBytes sampleDb sampleContract.Address sampleContract.RlpEncode =
      .ok { sampleContract with initScript := [] } ∧
    ({ sampleContract with initScript := [] } : StateObject).Init = [] := by
  decide

/-! ## Storage-slot keys and the frame of the mutators -/

theorem toBEAux_digits_lt (fuel n : Nat) : ∀ b ∈ toBEAux fuel n [], b < 256 := by
  induction fuel generalizing n with
  | zero => simp [toBEAux]
  | succ fuel ih =>
    by_cases hn : n = 0
    · subst hn
      simp [toBEAux]
    · rw [toBEAux_succ_pos fuel n hn]
      intro b hb
      rcases List.mem_append.mp hb with h | h
      · exact ih (n / 256) b h
      · rw [List.mem_singleton.mp h]
        exact Nat.mod_lt n (by norm_num)

/-- The key of a storage slot always has 32 bytes. -/
theorem BigToBytes_length (num : Int) : (BigToBytes num 256).length = 32 := by
  have hlt : num.natAbs % 2 ^ 256 < 256 ^ 32 := by
    have h : (256 : Nat) ^ 32 = 2 ^ 256 := by norm_num
    rw [h]
    exact Nat.mod_lt _ (by positivity)
  have hle := toBE_length_le _ 32 hlt
  unfold BigToBytes
  simp only [List.length_append, List.length_replicate]
  omega

theorem BigToBytes_digits_lt (num : Int) : ∀ b ∈ BigToBytes num 256, b < 256 := by
  intro b hb
  unfold BigToBytes at hb
  rcases List.mem_append.mp hb with h | h
  · rw [(List.mem_replicate.mp h).2]
    norm_num
  · exact toBEAux_digits_lt _ _ b h

/-- C19 (amended): `GetMem(num)` reads and `SetMem(num, v)` writes the sub-trie
at the key `BigToBytes(num, 256)`: `GetMem(num)` is `Addr(key)` and
`SetMem(num, v)` is `SetAddr(key, v)` for that key. The key always has 32
bytes; it is the big-endian encoding of `num` when `0 ≤ num < 2 ^ 256`. -/
theorem c19_slot_key_encoding (c : StateObject) (num : Int) :
    c.GetMem num = c.Addr (BigToBytes num 256) ∧
    (∀ (db : Db) (v : Value), c.SetMem db num v = c.SetAddr db (BigToBytes num 256) v) ∧
    (BigToBytes num 256).length = 32 ∧
    (∀ b ∈ BigToBytes num 256, b < 256) ∧
    (0 ≤ num → num < 2 ^ 256 → (fromBE (BigToBytes num 256) : Int) = num) := by
  refine ⟨rfl, fun _ _ => rfl, BigToBytes_length num, BigToBytes_digits_lt num, ?_⟩
  intro h₀ h₁
  rw [BigToBytes_fromBE, Nat.mod_eq_of_lt (by omega)]
  omega

/-- C19 fails as stated: for the key `-1` the slot read and written is the one
whose 32 bytes encode `1`, so `GetMem(-1)` returns what `SetMem(1, 5)` wrote. -/
theorem c19_counterexample_negative_key :
    fromBE (BigToBytes (-1) 256) = 1 ∧
    ∃ c₁, (NewContract sampleDb [0x11] 0 []).SetMem sampleDb 1 (Item.ofUint 5) = .ok c₁ ∧
      c₁.GetMem (-1) = .ok (Item.ofUint 5) :=
  ⟨by decide, _, rfl, by decide⟩

/-- C20: `AddAmount`, `SubAmount` and `ReturnGas` change only the balance:
address, nonce, code, init code and storage stay as they were. `SetMem` and
`SetAddr` change only the sub-trie, and there only the written key: balance,
address, nonce, code and init code stay, and every other key reads as
before. -/
theorem c20_mutator_frames :
    (∀ (c : StateObject) (x : Int), c.AddAmount x = { c with Amount := (c.AddAmount x).Amount }) ∧
    (∀ (c : StateObject) (x : Int), c.SubAmount x = { c with Amount := (c.SubAmount x).Amount }) ∧
    (∀ (c : StateObject) (x : Int) (state : Option State),
      c.ReturnGas x state = { c with Amount := (c.ReturnGas x state).Amount }) ∧
    (∀ (db : Db) (c c' : StateObject) (num : Int) (val : Value),
      c.SetMem db num val = .ok c' →
        c'.Amount = c.Amount ∧ c'.Address = c.Address ∧ c'.Nonce = c.Nonce ∧
        c'.Script = c.Script ∧ c'.Init = c.Init ∧
        ∀ key : Bytes, key ≠ BigToBytes num 256 → c'.Addr key = c.Addr key) ∧
    (∀ (db : Db) (c c' : StateObject) (addr : Bytes) (value : Item),
      c.SetAddr db addr value = .ok c' →
        c'.Amount = c.Amount ∧ c'.Address = c.Address ∧ c'.Nonce = c.Nonce ∧
        c'.Script = c.Script ∧ c'.Init = c.Init ∧
        ∀ key : Bytes, key ≠ addr → c'.Addr key = c.Addr key) := by
  refine ⟨fun _ _ => rfl, fun _ _ => rfl, fun _ _ _ => rfl, ?_, ?_⟩
  · intro db c c' num val h
    obtain ⟨s, hs, hc'⟩ := SetMem_ok_inv db c c' num val h
    subst hc'
    refine ⟨rfl, rfl, rfl, rfl, rfl, ?_⟩
    intro key hkey
    simp only [StateObject.Addr, hs]
    rw [Trie.Get_Update_other db s.trie _ key _ hkey]
  · intro db c c' addr value h
    obtain ⟨s, hs, hc'⟩ := SetAddr_ok_inv db c c' addr value h
    subst hc'
    refine ⟨rfl, rfl, rfl, rfl, rfl, ?_⟩
    intro key hkey
    simp only [StateObject.Addr, hs]
    rw [Trie.Get_Update_other db s.trie _ key _ hkey]

/-- C20, on the sample contract: slot `2` is written, slot `1` and the other
fields are as before. -/
theorem c20_mutator_frames_witness :
    ∃ c', sampleContract.SetMem sampleDb 2 (Item.ofUint 9) = .ok c' ∧
      c'.Amount = sampleContract.Amount ∧ c'.Address = sampleContract.Address ∧
      c'.Nonce = sampleContract.Nonce ∧ c'.Script = sampleContract.Script ∧
      c'.Init = sampleContract.Init ∧
      c'.Addr (BigToBytes 1 256) = sampleContract.Addr (BigToBytes 1 256) ∧
      c'.Addr (BigToBytes 2 256) = .ok (Item.ofUint 9) := by
  obtain ⟨h₁, h₂, h₃, h₄, h₅, h₆⟩ :=
    c20_mutator_frames.2.2.2.1 sampleDb sampleContract _ 2 (Item.ofUint 9) rfl
  exact ⟨_, rfl, h₁, h₂, h₃, h₄, h₅, h₆ (BigToBytes 1 256) (by decide), by decide⟩

end Ethchain
